import Mathlib

/-!
Vigenere character device: a shallow embedding of `Module/Vigenere.c`

Conventions of the embedding.

* A C `char` is an `Int` holding the character's value.  Nothing below depends
  on whether `char` is signed: every definition is total on `Int`, and the
  values `encryptChar` and `decryptChar` compute for a letter are shown to lie
  between 40 and 122, whatever the key byte, so storing them into a `char`
  never truncates.
* A buffer is a `List Int`: the bytes that can be accessed at its pointer.  For
  `vmalloc(n)` C promises `n` of them; where a property does not depend on
  that number, the length of the list is left open, which also covers a
  page-granular allocation.  Reading or writing outside a buffer is undefined
  behaviour in C; every operation returns an `Option`, and `none` stands for
  such an access.
* `vmalloc` can fail.  The functions that allocate take a `Bool` telling whether
  the allocation succeeds.
* A `__user` pointer is the list of bytes that can be read from that address
  (for `copy_from_user`), or the number of bytes that can be stored at that
  address (for `copy_to_user`).
* `size_t` and `loff_t` values are natural numbers; all values that occur are
  far below the word size, so no arithmetic wraps.
-/

set_option maxRecDepth 100000

namespace Vigenere

/-! ## The driver -/

/-- The `BUFFER_SIZE` of the text and key buffers. -/
def BUFFER_SIZE : Nat := 512

/-- The ioctl command `MODE_ENCRYPT`, the character `'e'`. -/
def MODE_ENCRYPT : Nat := 101

/-- The ioctl command `MODE_DECRYPT`, the character `'d'`. -/
def MODE_DECRYPT : Nat := 100

/-- The value of `sizeof(ds->key)` in `myIoCtl`: `key` is declared `char*`, so
this is the size of a pointer (8 bytes on the 64-bit kernels the module is
built for), not the size of the buffer it points to. -/
def SIZEOF_KEY : Nat := 8

/-- The driver's `struct myds`: the text buffer, the key buffer, and the cipher
flag (`Encrypt: 1; Decrypt: 0`). -/
structure myds where
  text : List Int
  key : List Int
  cipher : Int
deriving DecidableEq, Repr

/-- The C library `strlen`: index of the first NUL of the buffer; `none` when
the buffer holds no NUL, in which case the scan leaves the buffer. -/
def strlen : List Int → Option Nat
  | [] => none
  | c :: cs => if c = 0 then some 0 else (strlen cs).map (fun n => n + 1)

/-- The kernel's `copy_from_user(to, from, n)`: `src` is what can be read at the
user address.  Copies as many of the `n` bytes as can be read, pads the copied
data with zero bytes up to `n`, and returns the new destination buffer together
with the number of bytes that could not be copied. -/
def copy_from_user (dst src : List Int) (n : Nat) : Option (List Int × Nat) :=
  if n ≤ dst.length then
    some (src.take n ++ List.replicate (n - min n src.length) 0 ++ dst.drop n,
          n - min n src.length)
  else none

/-- The kernel's `copy_to_user(to, from + off, n)`: `ucap` is the number of
bytes that can be stored at the user address.  Returns the bytes delivered to
the user and the number of bytes that could not be copied. -/
def copy_to_user (ucap : Nat) (src : List Int) (off n : Nat) :
    Option (List Int × Nat) :=
  if off + n ≤ src.length then
    some ((src.drop off).take (min n ucap), n - min n ucap)
  else none

/-- The loop of `resolveKey`, for the `n` remaining iterations with the key
cursor at `j`; yields the bytes stored into `resolvedKey`. -/
def resolveKeyLoop (key : List Int) : Nat → Nat → Option (List Int)
  | 0, _ => some []
  | n + 1, j =>
    match strlen key with
    | none => none
    | some len =>
      let j := if j = len then 0 else j
      match key[j]? with
      | none => none
      | some k =>
        match resolveKeyLoop key n (j + 1) with
        | none => none
        | some rest => some (k :: rest)

/-- The driver's `resolveKey(key, textLen)`.  `vm` tells whether `vmalloc`
succeeds.  Result `some none` is the `NULL` return; `some (some r)` is the
resolved key of `textLen + 1` bytes, terminator included. -/
def resolveKey (vm : Bool) (key : List Int) (textLen : Nat) :
    Option (Option (List Int)) :=
  if vm = false then some none
  else
    match resolveKeyLoop key textLen 0 with
    | none => none
    | some r => some (some (r ++ [0]))

/-- The driver's `encryptChar(c, key)`; `%` is C's truncating remainder. -/
def encryptChar (c key : Int) : Int :=
  if 97 ≤ c ∧ c ≤ 122 then
    let key := if 65 ≤ key ∧ key ≤ 90 then key + (97 - 65) else key
    (c - 97 + (key - 97)).tmod 26 + 97
  else if 65 ≤ c ∧ c ≤ 90 then
    let key := if 97 ≤ key ∧ key ≤ 122 then key - (97 - 65) else key
    (c - 65 + (key - 65)).tmod 26 + 65
  else c

/-- The driver's `decryptChar(c, key)`; `%` is C's truncating remainder. -/
def decryptChar (c key : Int) : Int :=
  if 97 ≤ c ∧ c ≤ 122 then
    let key := if 65 ≤ key ∧ key ≤ 90 then key + (97 - 65) else key
    (c - 97 - (key - 97) + 26).tmod 26 + 97
  else if 65 ≤ c ∧ c ≤ 90 then
    let key := if 97 ≤ key ∧ key ≤ 122 then key - (97 - 65) else key
    (c - 65 - (key - 65) + 26).tmod 26 + 65
  else c

/-- The letter test of the loops in `encrypt` and `decrypt`:
`(c >= 'A' && c <= 'Z') || (c >= 'a' && c <= 'z')`. -/
abbrev isLetter (c : Int) : Prop := (65 ≤ c ∧ c ≤ 90) ∨ (97 ≤ c ∧ c ≤ 122)

/-- The `for` loop shared, up to the per-character function `f`, by `encrypt`
and `decrypt`: `n` iterations remain, `i` indexes the text and `j` the resolved
key. -/
def cipherLoop (f : Int → Int → Int) (resolvedKey : List Int) :
    Nat → Nat → Nat → List Int → Option (List Int)
  | 0, _, _, text => some text
  | n + 1, i, j, text =>
    match text[i]? with
    | none => none
    | some c =>
      if isLetter c then
        match resolvedKey[j]? with
        | none => none
        | some k => cipherLoop f resolvedKey n (i + 1) (j + 1) (text.set i (f c k))
      else cipherLoop f resolvedKey n (i + 1) j (text.set i c)

/-- The body shared by `encrypt` and `decrypt`, which differ only in the
per-character function.  Returns the function's return value and the text
buffer it leaves. -/
def cipher (f : Int → Int → Int) (vm : Bool) (text key : List Int) :
    Option (Int × List Int) :=
  match strlen text with
  | none => none
  | some textLen =>
    match resolveKey vm key textLen with
    | none => none
    | some none => some (-1, text)
    | some (some resolvedKey) =>
      match cipherLoop f resolvedKey textLen 0 0 text with
      | none => none
      | some text1 =>
        if textLen < text1.length then some (0, text1.set textLen 0) else none

/-- The driver's `encrypt(text, key)`. -/
def encrypt (vm : Bool) (text key : List Int) : Option (Int × List Int) :=
  cipher encryptChar vm text key

/-- The driver's `decrypt(text, key)`. -/
def decrypt (vm : Bool) (text key : List Int) : Option (Int × List Int) :=
  cipher decryptChar vm text key

/-- A C string literal as a buffer: the characters followed by the NUL. -/
def cstr (s : String) : List Int :=
  s.toList.map (fun ch => (ch.toNat : Int)) ++ [0]

/-- The driver's `myOpen`.  `ds_ok` tells whether the `vmalloc` of the
`struct myds` succeeds; `text` and `key` are the results of the two
`vmalloc(BUFFER_SIZE)` calls: `none` for `NULL`, otherwise the contents of the
fresh buffer, which `vmalloc` does not initialise.  Returns the return value
and what is stored in `fs->private_data`. -/
def myOpen (ds_ok : Bool) (text key : Option (List Int)) : Int × Option myds :=
  if ds_ok = false then (-1, none)
  else
    match text with
    | none => (-1, none)
    | some t =>
      match key with
      | none => (-1, none)
      | some k => (0, some { text := t, key := k, cipher := 0 })

/-- The driver's `myWrite(fs, buf, hsize, off)`.  `buf` is what can be read at
the user pointer.  The function never uses `off`, so the file offset is left as
it was.  Returns the return value and the new `struct myds`. -/
def myWrite (ds : myds) (buf : List Int) (hsize : Nat) : Option (Int × myds) :=
  if hsize ≤ 0 then some (hsize, ds)
  else
    let hsize := if hsize > BUFFER_SIZE then BUFFER_SIZE else hsize
    match copy_from_user ds.text buf hsize with
    | none => none
    | some (text1, failedToCopy) =>
      if failedToCopy > 0 then some (-1, { ds with text := text1 })
      else if hsize < text1.length then
        some (hsize, { ds with text := text1.set hsize 0 })
      else none

/-- Lines 149 to 180 of `myRead`: what follows the `switch`.  Returns the return
value, the bytes delivered to the user, the `struct myds` and the new `*off`. -/
def readData (ds : myds) (ucap hsize off : Nat) :
    Option (Int × List Int × myds × Nat) :=
  match strlen ds.text with
  | none => none
  | some dataSize =>
    if hsize ≤ 0 then some (hsize, [], ds, off)
    else
      let hsize := if hsize > BUFFER_SIZE then BUFFER_SIZE else hsize
      if off ≥ dataSize then some (0, [], ds, off)
      else
        let hsize := if off + hsize > dataSize then dataSize - off else hsize
        match copy_to_user ucap ds.text off hsize with
        | none => none
        | some (out, failedToCopy) =>
          if failedToCopy > 0 then some (-1, out, ds, off)
          else some (hsize, out, ds, off + hsize)

/-- The driver's `myRead(fs, buf, hsize, off)`.  `vm` tells whether the
`vmalloc` inside `resolveKey` succeeds, `ucap` is the number of bytes that can
be stored at the user pointer `buf`.  Returns the return value, the bytes
delivered to the user, the new `struct myds` and the new `*off`. -/
def myRead (vm : Bool) (ds : myds) (ucap hsize off : Nat) :
    Option (Int × List Int × myds × Nat) :=
  if ds.cipher = 1 then
    match encrypt vm ds.text ds.key with
    | none => none
    | some (r, text1) =>
      if r = -1 then some (-1, [], { ds with text := text1 }, off)
      else readData { ds with text := text1 } ucap hsize off
  else if ds.cipher = 0 then
    match decrypt vm ds.text ds.key with
    | none => none
    | some (r, text1) =>
      if r = -1 then some (-1, [], { ds with text := text1 }, off)
      else readData { ds with text := text1 } ucap hsize off
  else some (-1, [], ds, off)

/-- The driver's `myIoCtl(fs, command, data)`.  `data` is what can be read at
the user pointer holding the key.  Returns the return value and the new
`struct myds`. -/
def myIoCtl (ds : myds) (command : Nat) (data : List Int) : Option (Int × myds) :=
  match copy_from_user ds.key data SIZEOF_KEY with
  | none => none
  | some (key1, failedToCopy) =>
    if failedToCopy > 0 then some (-1, { ds with key := key1 })
    else if command = MODE_ENCRYPT then some (0, { ds with key := key1, cipher := 1 })
    else if command = MODE_DECRYPT then some (0, { ds with key := key1, cipher := 0 })
    else some (-1, { ds with key := key1 })

/-! ## The open file and the system calls on it -/

/-- The open file as the driver sees it: `fs->private_data` and the file
offset that the kernel hands to `myRead` as `*off`. -/
structure file where
  private_data : myds
  f_pos : Nat
deriving DecidableEq, Repr

/-- A system call on the open device. -/
inductive Call where
  | write (buf : List Int) (hsize : Nat)
  | ioctl (command : Nat) (data : List Int)
  | read (vm : Bool) (ucap hsize : Nat)
deriving DecidableEq, Repr

/-- One system call: the return value, the bytes delivered to the user and the
file afterwards. -/
def step (fs : file) : Call → Option (Int × List Int × file)
  | Call.write buf hsize =>
    match myWrite fs.private_data buf hsize with
    | none => none
    | some (r, ds) => some (r, [], { fs with private_data := ds })
  | Call.ioctl command data =>
    match myIoCtl fs.private_data command data with
    | none => none
    | some (r, ds) => some (r, [], { fs with private_data := ds })
  | Call.read vm ucap hsize =>
    match myRead vm fs.private_data ucap hsize fs.f_pos with
    | none => none
    | some (r, out, ds, off) => some (r, out, { private_data := ds, f_pos := off })

/-- A sequence of system calls; the results of the calls, in order, and the
file at the end. -/
def run (fs : file) : List Call → Option (List (Int × List Int) × file)
  | [] => some ([], fs)
  | c :: cs =>
    match step fs c with
    | none => none
    | some (r, out, fs1) =>
      match run fs1 cs with
      | none => none
      | some (rs, fs2) => some ((r, out) :: rs, fs2)

/-- The file a successful `open` creates, from the contents `t0` and `k0` of the
two fresh buffers: the offset starts at 0. -/
def openFile (t0 k0 : List Int) : Option file :=
  match myOpen true (some t0) (some k0) with
  | (_, none) => none
  | (_, some ds) => some { private_data := ds, f_pos := 0 }

/-! ## Auxiliary definitions, used to state and prove the properties -/

/-- The byte `resolveKey` stores at index `j` of the resolved key, for a key
buffer whose `strlen` is `len`: the key repeated cyclically.  (With `len = 0`
the cursor of `resolveKey` is never reset after the first byte and walks
through the key buffer.) -/
def keyStream (key : List Int) (len j : Nat) : Int :=
  if len = 0 then key.getD j 0 else key.getD (j % len) 0

/-- What the loop of `encrypt` or `decrypt` makes of a text, letter by letter,
when `ks j` is the key byte at index `j` and `j` letters came before. -/
def applyStream (f : Int → Int → Int) (ks : Nat → Int) : Nat → List Int → List Int
  | _, [] => []
  | j, c :: cs =>
    if isLetter c then f c (ks j) :: applyStream f ks (j + 1) cs
    else c :: applyStream f ks j cs

/-- The bytes `ks j`, `ks (j + 1)`, ... , `n` of them. -/
def streamFrom (ks : Nat → Int) : Nat → Nat → List Int
  | 0, _ => []
  | n + 1, j => ks j :: streamFrom ks n (j + 1)

/-- A printable ASCII character. -/
abbrev isPrintable (c : Int) : Prop := 32 ≤ c ∧ c ≤ 126

/-- The C string `encrypt` (for `f = encryptChar`) or `decrypt` (for
`f = decryptChar`) leaves in the text buffer when it is called on the C strings
`T` and `K`. -/
def cipherStr (f : Int → Int → Int) (T K : List Int) : List Int :=
  match cipher f true (T ++ [0]) (K ++ [0]) with
  | some (_, text) => text.take T.length
  | none => []

/-- The number of bytes one `myRead` hands out: the request `hsize`, clamped to
`BUFFER_SIZE` and to what is left between `off` and the end of the data. -/
def readCount (hsize dataSize off : Nat) : Nat :=
  min (min hsize BUFFER_SIZE) (dataSize - off)

/-- The results of a sequence of system calls on a freshly opened device whose
two buffers start out as `t0` and `k0`. -/
def session (t0 k0 : List Int) (calls : List Call) : Option (List (Int × List Int)) :=
  match openFile t0 k0 with
  | none => none
  | some fs => (run fs calls).map Prod.fst

/-- The characters of a string literal, without a terminator. -/
def chars (s : String) : List Int :=
  s.toList.map (fun ch => (ch.toNat : Int))

/-- A fresh `BUFFER_SIZE` buffer that happens to be zero-filled. -/
def zeroBuf : List Int := List.replicate BUFFER_SIZE 0

/-- The text a session holds after `i` reads, when it held the string `T` and the
key string `K` before them: every `myRead` runs the cipher over the stored text
again. -/
def textAfter (f : Int → Int → Int) (K T : List Int) (i : Nat) : List Int :=
  (fun X => cipherStr f X K)^[i] T

/-- The file offset after `i` reads of `hsize` bytes each, started at `off`, on a
text of `dataSize` bytes. -/
def cursorAfter (hsize dataSize off i : Nat) : Nat :=
  max off (min (off + i * min hsize BUFFER_SIZE) dataSize)

/-- The cipher flag `myIoCtl` sets for a command. -/
def cipherOf (command : Nat) : Int := if command = MODE_ENCRYPT then 1 else 0

/-- The per-character function `myRead` uses under a cipher flag. -/
def charFn (cipher : Int) : Int → Int → Int :=
  if cipher = 1 then encryptChar else decryptChar

/-- A fresh `BUFFER_SIZE` key buffer in which `vmalloc` happens to have left the
string "old". -/
def staleKeyBuf : List Int := cstr "old" ++ List.replicate 508 0

/-- The file after open with `zeroBuf` and `staleKeyBuf` and a write of "abc". -/
def writtenFile : file :=
  { private_data := { text := cstr "abc" ++ List.replicate 508 0, key := staleKeyBuf, cipher := 0 },
    f_pos := 0 }

/-- The `base` of the per-character formula: `'a'` for a lowercase `c`, `'A'`
otherwise. -/
def baseOf (c : Int) : Int := if 97 ≤ c ∧ c ≤ 122 then 97 else 65

/-- The key character `k` normalised to the case of `c`. -/
def normalise (c k : Int) : Int :=
  if 97 ≤ c ∧ c ≤ 122 then (if 65 ≤ k ∧ k ≤ 90 then k + 32 else k)
  else (if 97 ≤ k ∧ k ≤ 122 then k - 32 else k)

/-- Two key characters that are the same letter, in the same or in different
case. -/
abbrev sameLetter (a b : Int) : Prop :=
  isLetter a ∧ isLetter b ∧ (a = b ∨ a = b + 32 ∨ b = a + 32)

/-- The number of letters among the first `i` characters of a text. -/
def lettersBefore (T : List Int) (i : Nat) : Nat :=
  ((T.take i).filter (fun c => decide (isLetter c))).length

/-- The file at the end of a sequence of system calls on a freshly opened device
whose two buffers start out as `t0` and `k0`. -/
def sessionEnd (t0 k0 : List Int) (calls : List Call) : Option file :=
  match openFile t0 k0 with
  | none => none
  | some fs => (run fs calls).map Prod.snd

/-- A fresh `BUFFER_SIZE` key buffer in which `vmalloc` happens to have left
non-zero bytes only. -/
def dirtyBuf : List Int := List.replicate BUFFER_SIZE 120

/-- The file after open with two `zeroBuf` buffers, a write of "HELLO" and a
configure with the selector 'e' and the key "KEY". -/
def configuredFile : file :=
  { private_data := { text := cstr "HELLO" ++ List.replicate 506 0,
                      key := cstr "KEY" ++ List.replicate 508 0, cipher := 1 },
    f_pos := 0 }

/-- The file `configuredFile` after a read of 3 bytes. -/
def partlyReadFile : file :=
  { private_data := { text := cstr "RIJVS" ++ List.replicate 506 0,
                      key := cstr "KEY" ++ List.replicate 508 0, cipher := 1 },
    f_pos := 3 }

theorem strlen_append (T rest : List Int) (hT : ∀ c ∈ T, c ≠ 0) :
    strlen (T ++ 0 :: rest) = some T.length := by
  induction T with
  | nil => simp [strlen]
  | cons c cs ih =>
    have hc : c ≠ 0 := hT c (by simp)
    have ih1 := ih (fun d hd => hT d (by simp [hd]))
    simp [strlen, hc, ih1]

theorem strlen_spec (buf : List Int) (n : Nat) (h : strlen buf = some n) :
    ∃ rest, buf = buf.take n ++ 0 :: rest ∧ (buf.take n).length = n ∧ ∀ c ∈ buf.take n, c ≠ 0 := by
  induction buf generalizing n with
  | nil => simp [strlen] at h
  | cons c cs ih =>
    by_cases hc : c = 0
    · simp [strlen, hc] at h
      subst h
      exact ⟨cs, by simp [hc], by simp, by simp⟩
    · simp only [strlen, hc, if_false] at h
      cases hs : strlen cs with
      | none => simp [hs] at h
      | some m =>
        simp [hs] at h
        subst h
        obtain ⟨rest, h1, h2, h3⟩ := ih m hs
        refine ⟨rest, ?_, ?_, ?_⟩
        · simp only [List.take_succ_cons, List.cons_append]
          rw [← h1]
        · simp [h2]
        · intro d hd
          simp only [List.take_succ_cons, List.mem_cons] at hd
          rcases hd with hd | hd
          · rw [hd]; exact hc
          · exact h3 d hd

theorem streamFrom_length (ks : Nat → Int) (n j : Nat) : (streamFrom ks n j).length = n := by
  induction n generalizing j with
  | zero => rfl
  | succ n ih => simp [streamFrom, ih]

theorem streamFrom_getElem? (ks : Nat → Int) (n j i : Nat) (h : i < n) :
    (streamFrom ks n j)[i]? = some (ks (j + i)) := by
  induction n generalizing i j with
  | zero => omega
  | succ n ih =>
    cases i with
    | zero => simp [streamFrom]
    | succ i =>
      simp only [streamFrom, List.getElem?_cons_succ]
      rw [ih (j + 1) i (by omega)]
      congr 2
      omega

theorem getElem?_eq_getD (l : List Int) (i : Nat) (h : i < l.length) :
    l[i]? = some (l.getD i 0) := by
  simp [List.getD, List.getElem?_eq_getElem h]

/-- resolveKeyLoop on a key buffer with a non-empty string. -/
theorem resolveKeyLoop_pos (key : List Int) (len : Nat) (hlen : strlen key = some len)
    (hpos : 0 < len) (n j m : Nat) (hj : j ≤ len) (hm : m % len = j % len) :
    resolveKeyLoop key n j = some (streamFrom (keyStream key len) n m) := by
  obtain ⟨rest, h1, h2, _⟩ := strlen_spec key len hlen
  have hkl : len < key.length := by
    rw [h1]; simp [h2]
  induction n generalizing j m with
  | zero => rfl
  | succ n ih =>
    simp only [resolveKeyLoop, hlen, streamFrom]
    have hj1 : (if j = len then 0 else j) = m % len := by
      split
      · next h => rw [hm, h, Nat.mod_self]
      · next h => rw [hm, Nat.mod_eq_of_lt (by omega)]
    have hlt : m % len < len := Nat.mod_lt _ hpos
    rw [hj1, getElem?_eq_getD key (m % len) (by omega)]
    have := ih (m % len + 1) (m + 1) (by omega) (by rw [Nat.add_mod, Nat.add_mod (m % len) 1, Nat.mod_mod])
    simp only [this]
    simp [keyStream, Nat.pos_iff_ne_zero.mp hpos]

theorem resolveKeyLoop_walk (key : List Int) (hlen : strlen key = some 0)
    (n j : Nat) (hj : 0 < j) (hn : j + n ≤ key.length) :
    resolveKeyLoop key n j = some (streamFrom (keyStream key 0) n j) := by
  induction n generalizing j with
  | zero => rfl
  | succ n ih =>
    simp only [resolveKeyLoop, hlen, streamFrom]
    have hj1 : (if j = 0 then 0 else j) = j := by
      split <;> omega
    rw [hj1, getElem?_eq_getD key j (by omega)]
    simp only [ih (j + 1) (by omega) (by omega)]
    simp [keyStream]

theorem resolveKeyLoop_zero (key : List Int) (hlen : strlen key = some 0)
    (n : Nat) (hn : n ≤ key.length) :
    resolveKeyLoop key n 0 = some (streamFrom (keyStream key 0) n 0) := by
  cases n with
  | zero => rfl
  | succ n =>
    simp only [resolveKeyLoop, hlen, streamFrom, if_true, Nat.zero_add]
    rw [getElem?_eq_getD key 0 (by omega)]
    cases n with
    | zero => simp [resolveKeyLoop, streamFrom, keyStream]
    | succ n =>
      simp only [resolveKeyLoop_walk key hlen (n + 1) 1 (by omega) (by omega)]
      simp [keyStream]

/-- resolveKey on any terminated key buffer. -/
theorem resolveKey_eq (key : List Int) (len : Nat) (hlen : strlen key = some len)
    (n : Nat) (hn : len = 0 → n ≤ key.length) :
    resolveKey true key n = some (some (streamFrom (keyStream key len) n 0 ++ [0])) := by
  unfold resolveKey
  rcases Nat.eq_zero_or_pos len with h0 | hpos
  · subst h0
    simp [resolveKeyLoop_zero key hlen n (hn rfl)]
  · simp [resolveKeyLoop_pos key len hlen hpos n 0 0 (by omega) rfl]

theorem applyStream_length (f : Int → Int → Int) (ks : Nat → Int) (j : Nat) (T : List Int) :
    (applyStream f ks j T).length = T.length := by
  induction T generalizing j with
  | nil => rfl
  | cons c cs ih =>
    unfold applyStream
    split <;> simp [ih]

theorem getElem?_append_cons (pre : List Int) (c : Int) (tl : List Int) :
    (pre ++ c :: tl)[pre.length]? = some c := by
  induction pre with
  | nil => simp
  | cons a as ih => simpa using ih

theorem set_append_cons (pre : List Int) (c x : Int) (tl : List Int) :
    (pre ++ c :: tl).set pre.length x = pre ++ x :: tl := by
  induction pre with
  | nil => rfl
  | cons a as ih => simp [ih]

theorem cipherLoop_eq (f : Int → Int → Int) (rk : List Int) (ks : Nat → Int)
    (mid : List Int) (pre post : List Int) (j : Nat)
    (hrk : ∀ m, m < j + mid.length → rk[m]? = some (ks m)) :
    cipherLoop f rk mid.length pre.length j (pre ++ mid ++ post)
      = some (pre ++ applyStream f ks j mid ++ post) := by
  induction mid generalizing pre j with
  | nil => simp [cipherLoop, applyStream]
  | cons c cs ih =>
    have hget : (pre ++ c :: cs ++ post)[pre.length]? = some c := by
      rw [List.append_assoc]
      exact getElem?_append_cons pre c (cs ++ post)
    have hset : ∀ x : Int, (pre ++ c :: cs ++ post).set pre.length x
        = (pre ++ [x]) ++ cs ++ post := by
      intro x
      rw [List.append_assoc]
      simp only [List.cons_append, set_append_cons, List.append_assoc, List.nil_append]
    simp only [List.length_cons, cipherLoop, hget, hset]
    have hl : pre.length + 1 = (pre ++ [c]).length := by simp
    by_cases hc : isLetter c
    · rw [if_pos hc, hrk j (by simp)]
      simp only
      have hl2 : pre.length + 1 = (pre ++ [f c (ks j)]).length := by simp
      rw [hl2, ih (pre ++ [f c (ks j)]) (j + 1) (fun m hm => hrk m (by simp at hm ⊢; omega))]
      simp [applyStream, hc]
    · rw [if_neg hc, hl, ih (pre ++ [c]) j (fun m hm => hrk m (by simp at hm ⊢; omega))]
      simp [applyStream, hc]

/-- What `encrypt`/`decrypt` do on a terminated text with a terminated key. -/
theorem cipher_eq (f : Int → Int → Int) (T rest key : List Int) (len : Nat)
    (hT : ∀ c ∈ T, c ≠ 0) (hlen : strlen key = some len)
    (hk : len = 0 → T.length ≤ key.length) :
    cipher f true (T ++ 0 :: rest) key
      = some (0, applyStream f (keyStream key len) 0 T ++ 0 :: rest) := by
  unfold cipher
  rw [strlen_append T rest hT]
  simp only [resolveKey_eq key len hlen T.length hk]
  have h := cipherLoop_eq f (streamFrom (keyStream key len) T.length 0 ++ [0])
    (keyStream key len) T [] (0 :: rest) 0 (by
      intro m hm
      rw [List.getElem?_append_left (by rw [streamFrom_length]; omega)]
      rw [streamFrom_getElem? _ _ _ _ (by omega)]
      simp)
  simp only [List.length_nil, List.nil_append] at h
  rw [h]
  simp only [List.length_append, applyStream_length, List.length_cons]
  rw [if_pos (by omega)]
  congr 2
  have := set_append_cons (applyStream f (keyStream key len) 0 T) 0 0 rest
  rwa [applyStream_length] at this

/-- When `vmalloc` fails. -/
theorem cipher_nomem (f : Int → Int → Int) (text key : List Int) (n : Nat)
    (h : strlen text = some n) : cipher f false text key = some (-1, text) := by
  simp [cipher, h, resolveKey]

/-! ## The per-character functions -/

theorem tmod26_bounds (x : Int) : -26 < x.tmod 26 ∧ x.tmod 26 < 26 := by
  refine ⟨?_, Int.tmod_lt_of_pos x (by decide)⟩
  cases x with
  | ofNat n =>
    have := @Int.tmod_nonneg (Int.ofNat n) 26 (Int.ofNat_nonneg n)
    omega
  | negSucc n =>
    have h : (Int.negSucc n).tmod 26 = -((((n + 1) % 26 : Nat)) : Int) := rfl
    rw [h]
    omega

theorem encryptChar_ne_zero (c k : Int) (hc : c ≠ 0) : encryptChar c k ≠ 0 := by
  unfold encryptChar
  split
  · have := (tmod26_bounds (c - 97 + ((if 65 ≤ k ∧ k ≤ 90 then k + (97 - 65) else k) - 97))).1
    simp only
    omega
  · split
    · have := (tmod26_bounds (c - 65 + ((if 97 ≤ k ∧ k ≤ 122 then k - (97 - 65) else k) - 65))).1
      simp only
      omega
    · exact hc

theorem decryptChar_ne_zero (c k : Int) (hc : c ≠ 0) : decryptChar c k ≠ 0 := by
  unfold decryptChar
  split
  · have := (tmod26_bounds (c - 97 - ((if 65 ≤ k ∧ k ≤ 90 then k + (97 - 65) else k) - 97) + 26)).1
    simp only
    omega
  · split
    · have := (tmod26_bounds (c - 65 - ((if 97 ≤ k ∧ k ≤ 122 then k - (97 - 65) else k) - 65) + 26)).1
      simp only
      omega
    · exact hc

/-- The value `encryptChar` returns for a letter fits a `char`, whatever the key byte. -/
theorem encryptChar_range (c k : Int) (hc : isLetter c) :
    40 ≤ encryptChar c k ∧ encryptChar c k ≤ 122 := by
  unfold encryptChar
  split
  · have := tmod26_bounds (c - 97 + ((if 65 ≤ k ∧ k ≤ 90 then k + (97 - 65) else k) - 97))
    simp only
    omega
  · split
    · have := tmod26_bounds (c - 65 + ((if 97 ≤ k ∧ k ≤ 122 then k - (97 - 65) else k) - 65))
      simp only
      omega
    · unfold isLetter at hc
      omega

/-- The value `decryptChar` returns for a letter fits a `char`, whatever the key byte. -/
theorem decryptChar_range (c k : Int) (hc : isLetter c) :
    40 ≤ decryptChar c k ∧ decryptChar c k ≤ 122 := by
  unfold decryptChar
  split
  · have := tmod26_bounds (c - 97 - ((if 65 ≤ k ∧ k ≤ 90 then k + (97 - 65) else k) - 97) + 26)
    simp only
    omega
  · split
    · have := tmod26_bounds (c - 65 - ((if 97 ≤ k ∧ k ≤ 122 then k - (97 - 65) else k) - 65) + 26)
      simp only
      omega
    · unfold isLetter at hc
      omega

theorem encryptChar_lower (c k : Int) (hc : 97 ≤ c ∧ c ≤ 122) (hk : isLetter k) :
    97 ≤ encryptChar c k ∧ encryptChar c k ≤ 122 ∧
      decryptChar (encryptChar c k) k = c := by
  have e : encryptChar c k = (c - 97 + ((if 65 ≤ k ∧ k ≤ 90 then k + (97 - 65) else k) - 97)) % 26 + 97 := by
    unfold encryptChar
    rw [if_pos hc]
    simp only
    rw [Int.tmod_eq_emod (by split <;> omega) (by decide)]
  have b : 97 ≤ encryptChar c k ∧ encryptChar c k ≤ 122 := by
    rw [e]; omega
  refine ⟨b.1, b.2, ?_⟩
  unfold decryptChar
  rw [if_pos b]
  simp only
  rw [Int.tmod_eq_emod (by split <;> omega) (by decide), e]
  split <;> omega

theorem encryptChar_upper (c k : Int) (hc : 65 ≤ c ∧ c ≤ 90) (hk : isLetter k) :
    65 ≤ encryptChar c k ∧ encryptChar c k ≤ 90 ∧
      decryptChar (encryptChar c k) k = c := by
  have hn : ¬ (97 ≤ c ∧ c ≤ 122) := by omega
  have e : encryptChar c k = (c - 65 + ((if 97 ≤ k ∧ k ≤ 122 then k - (97 - 65) else k) - 65)) % 26 + 65 := by
    unfold encryptChar
    rw [if_neg hn, if_pos hc]
    simp only
    rw [Int.tmod_eq_emod (by split <;> omega) (by decide)]
  have b : 65 ≤ encryptChar c k ∧ encryptChar c k ≤ 90 := by
    rw [e]; omega
  have bn : ¬ (97 ≤ encryptChar c k ∧ encryptChar c k ≤ 122) := by omega
  refine ⟨b.1, b.2, ?_⟩
  unfold decryptChar
  rw [if_neg bn, if_pos b]
  simp only
  rw [Int.tmod_eq_emod (by split <;> omega) (by decide), e]
  split <;> omega

theorem encryptChar_letter (c k : Int) (hc : isLetter c) (hk : isLetter k) :
    isLetter (encryptChar c k) ∧ decryptChar (encryptChar c k) k = c := by
  rcases hc with hc | hc
  · obtain ⟨h1, h2, h3⟩ := encryptChar_upper c k hc hk
    exact ⟨Or.inl ⟨h1, h2⟩, h3⟩
  · obtain ⟨h1, h2, h3⟩ := encryptChar_lower c k hc hk
    exact ⟨Or.inr ⟨h1, h2⟩, h3⟩

theorem applyStream_ne_zero (f : Int → Int → Int) (hf : ∀ c k, c ≠ 0 → f c k ≠ 0)
    (ks : Nat → Int) (j : Nat) (T : List Int) (hT : ∀ c ∈ T, c ≠ 0) :
    ∀ c ∈ applyStream f ks j T, c ≠ 0 := by
  induction T generalizing j with
  | nil => simp [applyStream]
  | cons d ds ih =>
    have hd : d ≠ 0 := hT d (by simp)
    have ih1 := fun j => ih j (fun e he => hT e (by simp [he]))
    intro c hc
    unfold applyStream at hc
    split at hc
    · simp only [List.mem_cons] at hc
      rcases hc with hc | hc
      · rw [hc]; exact hf d _ hd
      · exact ih1 _ c hc
    · simp only [List.mem_cons] at hc
      rcases hc with hc | hc
      · rw [hc]; exact hd
      · exact ih1 _ c hc

theorem applyStream_roundtrip (ks : Nat → Int) (hks : ∀ j, isLetter (ks j)) (j : Nat)
    (T : List Int) :
    applyStream decryptChar ks j (applyStream encryptChar ks j T) = T := by
  induction T generalizing j with
  | nil => rfl
  | cons c cs ih =>
    by_cases hc : isLetter c
    · obtain ⟨h1, h2⟩ := encryptChar_letter c (ks j) hc (hks j)
      simp only [applyStream, if_pos hc, if_pos h1, h2, ih]
    · simp only [applyStream, if_neg hc, ih]

/-! ## The cipher on C strings -/

theorem strlen_cstring (K krest : List Int) (hK : ∀ k ∈ K, k ≠ 0) :
    strlen (K ++ 0 :: krest) = some K.length := strlen_append K krest hK

theorem keyStream_cstring (K krest : List Int) (hK : K ≠ []) (j : Nat) :
    keyStream (K ++ 0 :: krest) K.length j = K.getD (j % K.length) 0 := by
  have hpos : 0 < K.length := List.length_pos.mpr hK
  have hlt : j % K.length < K.length := Nat.mod_lt _ hpos
  unfold keyStream
  rw [if_neg (by omega)]
  simp only [List.getD_eq_getElem?_getD]
  rw [List.getElem?_append_left hlt]

theorem keyStream_mem (K krest : List Int) (hK : K ≠ []) (j : Nat) :
    keyStream (K ++ 0 :: krest) K.length j ∈ K := by
  have hpos : 0 < K.length := List.length_pos.mpr hK
  have hlt : j % K.length < K.length := Nat.mod_lt _ hpos
  rw [keyStream_cstring K krest hK j]
  simp only [List.getD_eq_getElem?_getD, List.getElem?_eq_getElem hlt, Option.getD_some]
  exact List.getElem_mem _

theorem applyStream_congr (f : Int → Int → Int) (ks ks2 : Nat → Int) (h : ∀ j, ks j = ks2 j)
    (j : Nat) (T : List Int) : applyStream f ks j T = applyStream f ks2 j T := by
  have : ks = ks2 := funext h
  rw [this]

/-- `encrypt`/`decrypt` on a text buffer holding the string `T` and a key buffer holding the
non-empty string `K`. -/
theorem cipher_cstring (f : Int → Int → Int) (T rest K krest : List Int)
    (hT : ∀ c ∈ T, c ≠ 0) (hK : ∀ k ∈ K, k ≠ 0) (hne : K ≠ []) :
    cipher f true (T ++ 0 :: rest) (K ++ 0 :: krest)
      = some (0, applyStream f (fun j => K.getD (j % K.length) 0) 0 T ++ 0 :: rest) := by
  have hpos : 0 < K.length := List.length_pos.mpr hne
  rw [cipher_eq f T rest (K ++ 0 :: krest) K.length hT (strlen_cstring K krest hK) (by omega)]
  rw [applyStream_congr f _ _ (keyStream_cstring K krest hne)]

theorem cipherStr_eq (f : Int → Int → Int) (T K : List Int)
    (hT : ∀ c ∈ T, c ≠ 0) (hK : ∀ k ∈ K, k ≠ 0) (hne : K ≠ []) :
    cipherStr f T K = applyStream f (fun j => K.getD (j % K.length) 0) 0 T := by
  unfold cipherStr
  rw [cipher_cstring f T [] K [] hT hK hne]
  simp only
  rw [List.take_append_of_le_length (by rw [applyStream_length])]
  rw [List.take_of_length_le (by rw [applyStream_length])]

/-- The buffers version in terms of `cipherStr`. -/
theorem cipher_buffers (f : Int → Int → Int) (T rest K krest : List Int)
    (hT : ∀ c ∈ T, c ≠ 0) (hK : ∀ k ∈ K, k ≠ 0) (hne : K ≠ []) :
    cipher f true (T ++ 0 :: rest) (K ++ 0 :: krest)
      = some (0, cipherStr f T K ++ 0 :: rest) := by
  rw [cipher_cstring f T rest K krest hT hK hne, cipherStr_eq f T K hT hK hne]

theorem cipherStr_length (f : Int → Int → Int) (T K : List Int)
    (hT : ∀ c ∈ T, c ≠ 0) (hK : ∀ k ∈ K, k ≠ 0) (hne : K ≠ []) :
    (cipherStr f T K).length = T.length := by
  rw [cipherStr_eq f T K hT hK hne, applyStream_length]

theorem cipherStr_ne_zero (f : Int → Int → Int) (hf : ∀ c k, c ≠ 0 → f c k ≠ 0)
    (T K : List Int) (hT : ∀ c ∈ T, c ≠ 0) (hK : ∀ k ∈ K, k ≠ 0) (hne : K ≠ []) :
    ∀ c ∈ cipherStr f T K, c ≠ 0 := by
  rw [cipherStr_eq f T K hT hK hne]
  exact applyStream_ne_zero f hf _ 0 T hT

theorem cycle_letter (K : List Int) (hne : K ≠ []) (hK : ∀ k ∈ K, isLetter k) (j : Nat) :
    isLetter (K.getD (j % K.length) 0) := by
  have hpos : 0 < K.length := List.length_pos.mpr hne
  have hlt : j % K.length < K.length := Nat.mod_lt _ hpos
  simp only [List.getD_eq_getElem?_getD, List.getElem?_eq_getElem hlt, Option.getD_some]
  exact hK _ (List.getElem_mem _)

theorem letter_ne_zero (K : List Int) (hK : ∀ k ∈ K, isLetter k) : ∀ k ∈ K, k ≠ 0 := by
  intro k hk
  have := hK k hk
  unfold isLetter at this
  omega

theorem printable_ne_zero (T : List Int) (hT : ∀ c ∈ T, isPrintable c) : ∀ c ∈ T, c ≠ 0 := by
  intro c hc
  have := hT c hc
  unfold isPrintable at this
  omega

theorem cipherStr_roundtrip (T K : List Int) (hT : ∀ c ∈ T, c ≠ 0) (hne : K ≠ [])
    (hK : ∀ k ∈ K, isLetter k) :
    cipherStr decryptChar (cipherStr encryptChar T K) K = T := by
  have hK0 := letter_ne_zero K hK
  rw [cipherStr_eq decryptChar _ K (cipherStr_ne_zero encryptChar encryptChar_ne_zero T K hT hK0 hne) hK0 hne]
  rw [cipherStr_eq encryptChar T K hT hK0 hne]
  exact applyStream_roundtrip _ (cycle_letter K hne hK) 0 T

/-! ## The system calls -/

theorem copy_from_user_ok (dst src more : List Int) (h : src.length ≤ dst.length) :
    copy_from_user dst (src ++ more) src.length = some (src ++ dst.drop src.length, 0) := by
  unfold copy_from_user
  rw [if_pos h]
  simp

/-- A write of a text shorter than the buffer. -/
theorem myWrite_ok (ds : myds) (T more : List Int) (hlen : ds.text.length = BUFFER_SIZE)
    (h0 : 0 < T.length) (hT : T.length < BUFFER_SIZE) :
    myWrite ds (T ++ more) T.length
      = some ((T.length : Int), { ds with text := T ++ 0 :: ds.text.drop (T.length + 1) }) := by
  unfold myWrite
  rw [if_neg (by omega)]
  simp only
  rw [if_neg (by omega), copy_from_user_ok ds.text T more (by omega)]
  simp only [gt_iff_lt, Nat.lt_irrefl, if_false, List.length_append, List.length_drop]
  rw [if_pos (by omega)]
  have hlt : T.length < ds.text.length := by omega
  have hd : List.drop T.length ds.text
      = ds.text[T.length] :: List.drop (T.length + 1) ds.text :=
    List.drop_eq_getElem_cons hlt
  rw [hd, set_append_cons]

/-- An ioctl whose key, terminator included, fits into the `SIZEOF_KEY` bytes copied. -/
theorem myIoCtl_copy (ds : myds) (K more : List Int)
    (hlen : ds.key.length = BUFFER_SIZE) (hK : K.length < SIZEOF_KEY)
    (hmore : SIZEOF_KEY ≤ (K ++ 0 :: more).length) :
    copy_from_user ds.key (K ++ 0 :: more) SIZEOF_KEY
      = some (K ++ 0 :: (more.take (SIZEOF_KEY - (K.length + 1)) ++ ds.key.drop SIZEOF_KEY), 0) := by
  unfold copy_from_user
  rw [if_pos (by rw [hlen]; decide)]
  congr 1
  rw [Nat.min_eq_left hmore]
  simp only [Nat.sub_self, List.replicate_zero, List.append_nil, Prod.mk.injEq, and_true]
  rw [List.take_append_eq_append_take, List.take_of_length_le (by omega)]
  rw [List.append_assoc]
  congr 1
  have : SIZEOF_KEY - K.length = (SIZEOF_KEY - (K.length + 1)) + 1 := by omega
  rw [this, List.take_succ_cons]
  rfl

theorem readData_eq (ds : myds) (E rest : List Int) (ucap hsize off : Nat)
    (htext : ds.text = E ++ 0 :: rest) (hE : ∀ c ∈ E, c ≠ 0)
    (hcap : readCount hsize E.length off ≤ ucap) :
    readData ds ucap hsize off
      = some ((readCount hsize E.length off : Int), (E.drop off).take (readCount hsize E.length off),
          ds, off + readCount hsize E.length off) := by
  unfold readData
  rw [htext, strlen_append E rest hE]
  simp only
  by_cases h0 : hsize ≤ 0
  · have : hsize = 0 := by omega
    subst this
    simp [readCount]
  · rw [if_neg h0]
    by_cases hoff : off ≥ E.length
    · rw [if_pos hoff]
      have : readCount hsize E.length off = 0 := by
        unfold readCount; omega
      simp [this]
    · rw [if_neg hoff]
      have hcnt : (if off + (if hsize > BUFFER_SIZE then BUFFER_SIZE else hsize) > E.length
            then E.length - off else (if hsize > BUFFER_SIZE then BUFFER_SIZE else hsize))
          = readCount hsize E.length off := by
        unfold readCount
        split <;> split <;> omega
      rw [hcnt]
      unfold copy_to_user
      have hle : readCount hsize E.length off ≤ E.length - off := by
        unfold readCount; omega
      rw [if_pos (by simp only [List.length_append, List.length_cons]; omega)]
      simp only
      rw [Nat.min_eq_left hcap]
      simp only [Nat.sub_self, gt_iff_lt, Nat.lt_irrefl, if_false]
      congr 2
      · congr 1
        rw [List.drop_append_of_le_length (by omega)]
        rw [List.take_append_of_le_length (by simp only [List.length_drop]; omega)]

/-- One read on a session whose buffers hold the strings `T` and `K`. -/
theorem myRead_eq (f : Int → Int → Int) (ds : myds) (T rest K krest : List Int)
    (ucap hsize off : Nat)
    (hmode : (ds.cipher = 1 ∧ f = encryptChar) ∨ (ds.cipher = 0 ∧ f = decryptChar))
    (hf : ∀ c k, c ≠ 0 → f c k ≠ 0)
    (htext : ds.text = T ++ 0 :: rest) (hkey : ds.key = K ++ 0 :: krest)
    (hT : ∀ c ∈ T, c ≠ 0) (hK : ∀ k ∈ K, k ≠ 0) (hne : K ≠ [])
    (hcap : readCount hsize T.length off ≤ ucap) :
    myRead true ds ucap hsize off
      = some ((readCount hsize T.length off : Int),
          ((cipherStr f T K).drop off).take (readCount hsize T.length off),
          { ds with text := cipherStr f T K ++ 0 :: rest },
          off + readCount hsize T.length off) := by
  have hlen := cipherStr_length f T K hT hK hne
  have hnz := cipherStr_ne_zero f hf T K hT hK hne
  have hrd := readData_eq { ds with text := cipherStr f T K ++ 0 :: rest } (cipherStr f T K) rest
    ucap hsize off rfl hnz (by rw [hlen]; exact hcap)
  rw [hlen, hkey] at hrd
  have hcb := cipher_buffers f T rest K krest hT hK hne
  unfold myRead
  rcases hmode with ⟨hm, hfe⟩ | ⟨hm, hfe⟩
  · subst hfe
    rw [if_pos hm]
    unfold encrypt
    rw [htext, hkey, hcb]
    simp only
    rw [if_neg (by decide)]
    exact hrd
  · subst hfe
    rw [if_neg (by rw [hm]; decide), if_pos hm]
    unfold decrypt
    rw [htext, hkey, hcb]
    simp only
    rw [if_neg (by decide)]
    exact hrd

/-! ## Sequences of system calls -/

theorem openFile_eq (t0 k0 : List Int) :
    openFile t0 k0 = some { private_data := { text := t0, key := k0, cipher := 0 }, f_pos := 0 } :=
  rfl

theorem run_append (fs : file) (cs1 cs2 : List Call) (rs1 : List (Int × List Int)) (fs1 : file)
    (h : run fs cs1 = some (rs1, fs1)) :
    run fs (cs1 ++ cs2) = (run fs1 cs2).map (fun r => (rs1 ++ r.1, r.2)) := by
  induction cs1 generalizing fs rs1 with
  | nil =>
    simp only [run, Option.some.injEq, Prod.mk.injEq] at h
    obtain ⟨h1, h2⟩ := h
    subst h1 h2
    rw [List.nil_append]
    cases hr : run fs cs2 <;> simp
  | cons c cs ih =>
    rw [List.cons_append]
    simp only [run] at h ⊢
    cases hs : step fs c with
    | none => simp [hs] at h
    | some r =>
      obtain ⟨r1, out, fsa⟩ := r
      simp only [hs] at h ⊢
      cases hr : run fsa cs with
      | none => simp [hr] at h
      | some q =>
        obtain ⟨rs, fsb⟩ := q
        simp only [hr, Option.some.injEq, Prod.mk.injEq] at h
        obtain ⟨h1, h2⟩ := h
        subst h1 h2
        rw [ih fsa rs hr]
        cases hr2 : run fsb cs2 <;> simp

theorem run_single (fs : file) (c : Call) (r : Int) (out : List Int) (fs1 : file)
    (h : step fs c = some (r, out, fs1)) : run fs [c] = some ([(r, out)], fs1) := by
  simp [run, h]

theorem charFn_ne_zero (cipher : Int) (c k : Int) (hc : c ≠ 0) : charFn cipher c k ≠ 0 := by
  unfold charFn
  split
  · exact encryptChar_ne_zero c k hc
  · exact decryptChar_ne_zero c k hc

theorem charFn_mode (cipher : Int) (h : cipher = 1 ∨ cipher = 0) :
    (cipher = 1 ∧ charFn cipher = encryptChar) ∨ (cipher = 0 ∧ charFn cipher = decryptChar) := by
  rcases h with h | h
  · left; exact ⟨h, by simp [charFn, h]⟩
  · right; exact ⟨h, by simp [charFn, h]⟩

theorem textAfter_props (f : Int → Int → Int) (hf : ∀ c k, c ≠ 0 → f c k ≠ 0)
    (K T : List Int) (hT : ∀ c ∈ T, c ≠ 0) (hK : ∀ k ∈ K, k ≠ 0) (hne : K ≠ []) (i : Nat) :
    (textAfter f K T i).length = T.length ∧ ∀ c ∈ textAfter f K T i, c ≠ 0 := by
  induction i with
  | zero => exact ⟨rfl, hT⟩
  | succ i ih =>
    have e : textAfter f K T (i + 1) = cipherStr f (textAfter f K T i) K := by
      unfold textAfter
      rw [Function.iterate_succ_apply']
    rw [e]
    exact ⟨by rw [cipherStr_length f _ K ih.2 hK hne, ih.1],
      cipherStr_ne_zero f hf _ K ih.2 hK hne⟩

theorem textAfter_succ (f : Int → Int → Int) (K T : List Int) (i : Nat) :
    textAfter f K T (i + 1) = cipherStr f (textAfter f K T i) K := by
  unfold textAfter
  rw [Function.iterate_succ_apply']

theorem cursorAfter_succ (hsize dataSize off i : Nat) :
    cursorAfter hsize dataSize off i + readCount hsize dataSize (cursorAfter hsize dataSize off i)
      = cursorAfter hsize dataSize off (i + 1) := by
  unfold cursorAfter readCount
  rw [Nat.succ_mul]
  generalize i * min hsize BUFFER_SIZE = a
  omega

theorem readCount_cursorAfter_le (hsize dataSize off i : Nat) :
    readCount hsize dataSize (cursorAfter hsize dataSize off i) ≤ readCount hsize dataSize off := by
  unfold cursorAfter readCount
  generalize i * min hsize BUFFER_SIZE = a
  omega

/-- Any number of reads in a row on a session holding the strings `T` and `K`. -/
theorem run_reads (ds : myds) (T rest K krest : List Int) (ucap hsize off : Nat)
    (hmode : ds.cipher = 1 ∨ ds.cipher = 0)
    (htext : ds.text = T ++ 0 :: rest) (hkey : ds.key = K ++ 0 :: krest)
    (hT : ∀ c ∈ T, c ≠ 0) (hK : ∀ k ∈ K, k ≠ 0) (hne : K ≠ [])
    (hcap : readCount hsize T.length off ≤ ucap) (m : Nat) :
    run { private_data := ds, f_pos := off } (List.replicate m (Call.read true ucap hsize))
      = some ((List.range m).map (fun i =>
            ((readCount hsize T.length (cursorAfter hsize T.length off i) : Int),
             ((textAfter (charFn ds.cipher) K T (i + 1)).drop (cursorAfter hsize T.length off i)).take
                (readCount hsize T.length (cursorAfter hsize T.length off i)))),
          { private_data := { ds with text := textAfter (charFn ds.cipher) K T m ++ 0 :: rest },
            f_pos := cursorAfter hsize T.length off m }) := by
  induction m with
  | zero =>
    have h0 : cursorAfter hsize T.length off 0 = off := by
      unfold cursorAfter; omega
    simp only [List.replicate_zero, run, List.range_zero, List.map_nil, h0]
    have : textAfter (charFn ds.cipher) K T 0 = T := rfl
    rw [this, ← htext]
  | succ m ih =>
    rw [List.replicate_succ', run_append _ _ _ _ _ ih]
    obtain ⟨hl, hz⟩ := textAfter_props (charFn ds.cipher) (charFn_ne_zero ds.cipher) K T hT hK hne m
    have hrd := myRead_eq (charFn ds.cipher)
      { ds with text := textAfter (charFn ds.cipher) K T m ++ 0 :: rest }
      (textAfter (charFn ds.cipher) K T m) rest K krest ucap hsize
      (cursorAfter hsize T.length off m) (charFn_mode ds.cipher hmode)
      (charFn_ne_zero ds.cipher) rfl hkey hz hK hne
      (by rw [hl]; exact Nat.le_trans (readCount_cursorAfter_le _ _ _ _) hcap)
    rw [hl] at hrd
    simp only [run, step, hrd, Option.map_some', List.range_succ, List.map_append, List.map_cons,
      List.map_nil, textAfter_succ, cursorAfter_succ]

theorem myIoCtl_ok (ds : myds) (command : Nat) (K more : List Int)
    (hlen : ds.key.length = BUFFER_SIZE) (hK : K.length < SIZEOF_KEY)
    (hmore : SIZEOF_KEY ≤ (K ++ 0 :: more).length)
    (hc : command = MODE_ENCRYPT ∨ command = MODE_DECRYPT) :
    myIoCtl ds command (K ++ 0 :: more)
      = some (0, { text := ds.text,
                   key := K ++ 0 :: (more.take (SIZEOF_KEY - (K.length + 1))
                            ++ ds.key.drop SIZEOF_KEY),
                   cipher := cipherOf command }) := by
  unfold myIoCtl
  rw [myIoCtl_copy ds K more hlen hK hmore]
  simp only [gt_iff_lt, Nat.lt_irrefl, if_false]
  rcases hc with hc | hc
  · rw [if_pos hc]
    simp [cipherOf, hc]
  · have hne : command ≠ MODE_ENCRYPT := by rw [hc]; decide
    rw [if_neg hne, if_pos hc]
    simp [cipherOf, hne]

theorem cipherOf_mode (command : Nat) : cipherOf command = 1 ∨ cipherOf command = 0 := by
  unfold cipherOf
  split
  · left; rfl
  · right; rfl

/-- One generation: a write, a configure and `m` reads, on any open file. -/
theorem run_generation (fs : file) (T tmore K more : List Int) (command ucap hsize m : Nat)
    (htl : fs.private_data.text.length = BUFFER_SIZE)
    (hkl : fs.private_data.key.length = BUFFER_SIZE)
    (h0 : 0 < T.length) (hTl : T.length < BUFFER_SIZE) (hT : ∀ c ∈ T, c ≠ 0)
    (hne : K ≠ []) (hK : ∀ k ∈ K, k ≠ 0) (hKl : K.length < SIZEOF_KEY)
    (hmore : SIZEOF_KEY ≤ (K ++ 0 :: more).length)
    (hc : command = MODE_ENCRYPT ∨ command = MODE_DECRYPT)
    (hcap : readCount hsize T.length fs.f_pos ≤ ucap) :
    run fs ([Call.write (T ++ tmore) T.length, Call.ioctl command (K ++ 0 :: more)]
        ++ List.replicate m (Call.read true ucap hsize))
      = some ([((T.length : Int), []), (0, [])] ++ (List.range m).map (fun i =>
            ((readCount hsize T.length (cursorAfter hsize T.length fs.f_pos i) : Int),
             ((textAfter (charFn (cipherOf command)) K T (i + 1)).drop
                  (cursorAfter hsize T.length fs.f_pos i)).take
                (readCount hsize T.length (cursorAfter hsize T.length fs.f_pos i)))),
          { private_data :=
              { text := textAfter (charFn (cipherOf command)) K T m
                          ++ 0 :: fs.private_data.text.drop (T.length + 1),
                key := K ++ 0 :: (more.take (SIZEOF_KEY - (K.length + 1))
                          ++ fs.private_data.key.drop SIZEOF_KEY),
                cipher := cipherOf command },
            f_pos := cursorAfter hsize T.length fs.f_pos m }) := by
  have hw := myWrite_ok fs.private_data T tmore htl h0 hTl
  have hi := myIoCtl_ok
    { fs.private_data with text := T ++ 0 :: fs.private_data.text.drop (T.length + 1) }
    command K more hkl hKl hmore hc
  have h2 : run fs [Call.write (T ++ tmore) T.length, Call.ioctl command (K ++ 0 :: more)]
      = some ([((T.length : Int), []), (0, [])],
          { private_data :=
              { text := T ++ 0 :: fs.private_data.text.drop (T.length + 1),
                key := K ++ 0 :: (more.take (SIZEOF_KEY - (K.length + 1))
                          ++ fs.private_data.key.drop SIZEOF_KEY),
                cipher := cipherOf command },
            f_pos := fs.f_pos }) := by
    simp only [run, step, hw, hi]
  rw [run_append _ _ _ _ _ h2]
  rw [run_reads _ T (fs.private_data.text.drop (T.length + 1)) K
    (more.take (SIZEOF_KEY - (K.length + 1)) ++ fs.private_data.key.drop SIZEOF_KEY)
    ucap hsize fs.f_pos (cipherOf_mode command) rfl rfl hT hK hne hcap m]
  rfl

theorem generation_lengths (fs : file) (T X K more : List Int)
    (htl : fs.private_data.text.length = BUFFER_SIZE)
    (hkl : fs.private_data.key.length = BUFFER_SIZE)
    (hTl : T.length < BUFFER_SIZE) (hX : X.length = T.length) (hKl : K.length < SIZEOF_KEY)
    (hmore : SIZEOF_KEY ≤ (K ++ 0 :: more).length) :
    (X ++ 0 :: fs.private_data.text.drop (T.length + 1)).length = BUFFER_SIZE
      ∧ (K ++ 0 :: (more.take (SIZEOF_KEY - (K.length + 1))
            ++ fs.private_data.key.drop SIZEOF_KEY)).length = BUFFER_SIZE := by
  simp only [List.length_append, List.length_cons, List.length_drop, List.length_take, htl, hkl, hX] at hmore ⊢
  have : SIZEOF_KEY ≤ BUFFER_SIZE := by decide
  omega

theorem session_eq (t0 k0 : List Int) (calls : List Call) :
    session t0 k0 calls
      = (run { private_data := { text := t0, key := k0, cipher := 0 }, f_pos := 0 } calls).map
          Prod.fst := rfl

theorem cursorAfter_zero_start (hsize dataSize i : Nat) :
    cursorAfter hsize dataSize 0 i = min (i * min hsize BUFFER_SIZE) dataSize := by
  unfold cursorAfter
  omega

theorem cursorAfter_none (hsize dataSize off : Nat) : cursorAfter hsize dataSize off 0 = off := by
  unfold cursorAfter
  omega

theorem sum_readCounts (hsize dataSize m : Nat) :
    ((List.range m).map (fun i => readCount hsize dataSize (cursorAfter hsize dataSize 0 i))).sum
      = cursorAfter hsize dataSize 0 m := by
  induction m with
  | zero => simp [cursorAfter]
  | succ m ih =>
    rw [List.range_succ, List.map_append, List.sum_append, ih]
    simp only [List.map_cons, List.map_nil, List.sum_cons, List.sum_nil, Nat.add_zero]
    exact cursorAfter_succ hsize dataSize 0 m

/-- One read in decrypt mode on a session whose text buffer holds the string `T` and whose
key buffer is terminated somewhere. -/
theorem myRead_decrypt_stream (ds : myds) (T rest : List Int) (len ucap hsize off : Nat)
    (hmode : ds.cipher = 0)
    (htext : ds.text = T ++ 0 :: rest) (hT : ∀ c ∈ T, c ≠ 0)
    (hkey : strlen ds.key = some len) (hk : len = 0 → T.length ≤ ds.key.length)
    (hcap : readCount hsize T.length off ≤ ucap) :
    decrypt true ds.text ds.key
        = some (0, applyStream decryptChar (keyStream ds.key len) 0 T ++ 0 :: rest)
      ∧ myRead true ds ucap hsize off
        = some ((readCount hsize T.length off : Int),
            ((applyStream decryptChar (keyStream ds.key len) 0 T).drop off).take
              (readCount hsize T.length off),
            { ds with text := applyStream decryptChar (keyStream ds.key len) 0 T ++ 0 :: rest },
            off + readCount hsize T.length off) := by
  have hce : decrypt true ds.text ds.key
      = some (0, applyStream decryptChar (keyStream ds.key len) 0 T ++ 0 :: rest) := by
    unfold decrypt
    rw [htext]
    exact cipher_eq decryptChar T rest ds.key len hT hkey hk
  refine ⟨hce, ?_⟩
  have hl := applyStream_length decryptChar (keyStream ds.key len) 0 T
  have hnz := applyStream_ne_zero decryptChar decryptChar_ne_zero (keyStream ds.key len) 0 T hT
  have hrd := readData_eq
    { ds with text := applyStream decryptChar (keyStream ds.key len) 0 T ++ 0 :: rest }
    (applyStream decryptChar (keyStream ds.key len) 0 T) rest
    ucap hsize off rfl hnz (by rw [hl]; exact hcap)
  rw [hl] at hrd
  unfold myRead
  rw [if_neg (by rw [hmode]; decide), if_pos hmode, hce]
  simp only
  rw [if_neg (by decide)]
  exact hrd

theorem copy_from_user_length (dst src text1 : List Int) (n failed : Nat)
    (h : copy_from_user dst src n = some (text1, failed)) : text1.length = dst.length := by
  unfold copy_from_user at h
  by_cases hn : n ≤ dst.length
  · rw [if_pos hn] at h
    simp only [Option.some.injEq, Prod.mk.injEq] at h
    rw [← h.1]
    simp only [List.length_append, List.length_take, List.length_replicate, List.length_drop]
    omega
  · rw [if_neg hn] at h
    exact absurd h (by simp)

theorem myWrite_inv (ds ds1 : myds) (buf : List Int) (hsize : Nat) (r : Int)
    (h : myWrite ds buf hsize = some (r, ds1)) :
    ds1.key = ds.key ∧ ds1.cipher = ds.cipher ∧ ds1.text.length = ds.text.length := by
  unfold myWrite at h
  by_cases h0 : hsize ≤ 0
  · rw [if_pos h0] at h
    simp only [Option.some.injEq, Prod.mk.injEq] at h
    rw [← h.2]
    exact ⟨rfl, rfl, rfl⟩
  · rw [if_neg h0] at h
    simp only at h
    generalize (if hsize > BUFFER_SIZE then BUFFER_SIZE else hsize) = n at h
    cases hc : copy_from_user ds.text buf n with
    | none => rw [hc] at h; exact absurd h (by simp)
    | some q =>
      obtain ⟨text1, failed⟩ := q
      have hl := copy_from_user_length _ _ _ _ _ hc
      rw [hc] at h
      simp only at h
      by_cases hf : failed > 0
      · rw [if_pos hf] at h
        simp only [Option.some.injEq, Prod.mk.injEq] at h
        rw [← h.2]
        exact ⟨rfl, rfl, hl⟩
      · rw [if_neg hf] at h
        by_cases hs : n < text1.length
        · rw [if_pos hs] at h
          simp only [Option.some.injEq, Prod.mk.injEq] at h
          rw [← h.2]
          exact ⟨rfl, rfl, by simp only [List.length_set]; exact hl⟩
        · rw [if_neg hs] at h
          exact absurd h (by simp)

/-- Writes change neither the key buffer, nor the cipher flag, nor the file offset, nor the
size of the text buffer. -/
theorem run_writes_inv (ws : List (List Int × Nat))
    (fs fs1 : file) (rs : List (Int × List Int))
    (h : run fs (ws.map (fun w => Call.write w.1 w.2)) = some (rs, fs1)) :
    fs1.private_data.key = fs.private_data.key ∧ fs1.private_data.cipher = fs.private_data.cipher
      ∧ fs1.f_pos = fs.f_pos
      ∧ fs1.private_data.text.length = fs.private_data.text.length := by
  induction ws generalizing fs rs with
  | nil =>
    simp only [List.map_nil, run, Option.some.injEq, Prod.mk.injEq] at h
    rw [← h.2]
    exact ⟨rfl, rfl, rfl, rfl⟩
  | cons w cs ih =>
    simp only [List.map_cons, run, step] at h
    cases hw : myWrite fs.private_data w.1 w.2 with
    | none => simp [hw] at h
    | some q =>
      obtain ⟨r, ds1⟩ := q
      simp only [hw] at h
      cases hr : run { private_data := ds1, f_pos := fs.f_pos }
          (cs.map (fun w => Call.write w.1 w.2)) with
      | none => simp [hr] at h
      | some q2 =>
        obtain ⟨rs2, fs2⟩ := q2
        simp only [hr, Option.some.injEq, Prod.mk.injEq] at h
        obtain ⟨-, h2⟩ := h
        subst h2
        obtain ⟨i1, i2, i3, i4⟩ := ih _ rs2 hr
        obtain ⟨j1, j2, j3⟩ := myWrite_inv _ _ _ _ _ hw
        simp only at i1 i2 i3 i4
        exact ⟨by rw [i1, j1], by rw [i2, j2], i3, by rw [i4, j3]⟩

/-! ## Reads with any terminated key buffer
-/

/-- C1. Round trip: for every text `T` of printable ASCII characters (hence without NUL, of
length at most the buffer capacity) and every non-empty key `K` of ASCII letters, `encrypt` on
buffers holding the C strings `T` and `K` returns 0 and leaves a string `E` of the same length
in place of `T` (the bytes behind the terminator untouched), and `decrypt` with the same key on
that buffer returns 0 and leaves exactly `T`. -/
theorem encrypt_decrypt_roundtrip (T K rest krest : List Int)
    (hT : ∀ c ∈ T, isPrintable c) (_hlen : T.length ≤ BUFFER_SIZE)
    (hne : K ≠ []) (hK : ∀ k ∈ K, isLetter k) :
    ∃ E, encrypt true (T ++ 0 :: rest) (K ++ 0 :: krest) = some (0, E ++ 0 :: rest)
      ∧ E.length = T.length
      ∧ decrypt true (E ++ 0 :: rest) (K ++ 0 :: krest) = some (0, T ++ 0 :: rest) := by
  have hT0 := printable_ne_zero T hT
  have hK0 := letter_ne_zero K hK
  refine ⟨cipherStr encryptChar T K, ?_, ?_, ?_⟩
  · exact cipher_buffers encryptChar T rest K krest hT0 hK0 hne
  · exact cipherStr_length encryptChar T K hT0 hK0 hne
  · unfold decrypt
    rw [cipher_buffers decryptChar _ rest K krest
      (cipherStr_ne_zero encryptChar encryptChar_ne_zero T K hT0 hK0 hne) hK0 hne]
    rw [cipherStr_roundtrip T K hT0 hne hK]

theorem encrypt_decrypt_roundtrip_witness :
    ∃ E, encrypt true (cstr "Hi, you!" ++ [7, 7]) (cstr "Key" ++ [9])
        = some (0, E ++ 0 :: [7, 7])
      ∧ E.length = 8
      ∧ decrypt true (E ++ 0 :: [7, 7]) (cstr "Key" ++ [9])
        = some (0, cstr "Hi, you!" ++ [7, 7]) :=
  encrypt_decrypt_roundtrip [72, 105, 44, 32, 121, 111, 117, 33] [75, 101, 121] [7, 7] [9]
    (by decide) (by decide) (by decide) (by decide)

/-! ## The reference vector
-/

/-- C2. Reference vector: `encrypt` on "ATTACKATDAWN" with key "LEMON" returns 0 and leaves
"LXFOPVEFRNHR"; `decrypt` on "LXFOPVEFRNHR" with key "LEMON" returns 0 and leaves
"ATTACKATDAWN". -/
theorem reference_vector :
    encrypt true (cstr "ATTACKATDAWN") (cstr "LEMON") = some (0, cstr "LXFOPVEFRNHR")
      ∧ decrypt true (cstr "LXFOPVEFRNHR") (cstr "LEMON") = some (0, cstr "ATTACKATDAWN") := by
  decide

/-! ## The client's session
-/

/-- The client's session with a key that fits: for a text `T` without NUL of 1 to
`BUFFER_SIZE - 1` bytes and a non-empty key `K` without NUL of fewer than `SIZEOF_KEY` bytes
(with at least `SIZEOF_KEY` readable bytes at the key pointer), open, write, configure, read
of `len(T)` bytes returns `len(T)` bytes: the string `encrypt` (`decrypt`) makes of `T`
under `K`. -/
theorem session_short_key (t0 k0 T tmore K more : List Int) (command ucap : Nat)
    (ht0 : t0.length = BUFFER_SIZE) (hk0 : k0.length = BUFFER_SIZE)
    (h0 : 0 < T.length) (hTl : T.length < BUFFER_SIZE) (hT : ∀ c ∈ T, c ≠ 0)
    (hne : K ≠ []) (hK : ∀ k ∈ K, k ≠ 0) (hKl : K.length < SIZEOF_KEY)
    (hmore : SIZEOF_KEY ≤ (K ++ 0 :: more).length)
    (hc : command = MODE_ENCRYPT ∨ command = MODE_DECRYPT)
    (hcap : T.length ≤ ucap) :
    session t0 k0 [Call.write (T ++ tmore) T.length, Call.ioctl command (K ++ 0 :: more),
        Call.read true ucap T.length]
      = some [((T.length : Int), []), (0, []),
          ((T.length : Int), cipherStr (charFn (cipherOf command)) T K)]
    ∧ cipher (charFn (cipherOf command)) true (T ++ [0]) (K ++ [0])
      = some (0, cipherStr (charFn (cipherOf command)) T K ++ [0]) := by
  have hrc : readCount T.length T.length 0 = T.length := by
    unfold readCount BUFFER_SIZE at *
    omega
  refine ⟨?_, cipher_buffers _ T [] K [] hT hK hne⟩
  have h := run_generation
    { private_data := { text := t0, key := k0, cipher := 0 }, f_pos := 0 }
    T tmore K more command ucap T.length 1 ht0 hk0 h0 hTl hT hne hK hKl hmore hc
    (by rw [hrc]; exact hcap)
  have hl := cipherStr_length (charFn (cipherOf command)) T K hT hK hne
  have hc0 : cursorAfter T.length T.length 0 0 = 0 := by
    unfold cursorAfter; omega
  have hr1 : List.range 1 = [0] := rfl
  rw [session_eq]
  simp only [List.replicate_one, List.cons_append, List.nil_append] at h
  rw [h]
  simp only [Option.map_some', hr1, List.map_cons, List.map_nil, hc0, hrc,
    List.drop_zero, textAfter, Function.iterate_succ, Function.iterate_zero, Function.comp_apply,
    id_eq]
  rw [List.take_of_length_le (by omega)]

theorem session_short_key_instance :
    session zeroBuf zeroBuf [Call.write (chars "ATTACKATDAWN" ++ [0]) 12,
        Call.ioctl MODE_ENCRYPT (chars "LEMON" ++ 0 :: [0, 0]), Call.read true 512 12]
      = some [(12, []), (0, []),
          (12, cipherStr (charFn (cipherOf MODE_ENCRYPT)) (chars "ATTACKATDAWN") (chars "LEMON"))]
    ∧ cipher (charFn (cipherOf MODE_ENCRYPT)) true (chars "ATTACKATDAWN" ++ [0])
        (chars "LEMON" ++ [0])
      = some (0, cipherStr (charFn (cipherOf MODE_ENCRYPT)) (chars "ATTACKATDAWN")
          (chars "LEMON") ++ [0]) :=
  session_short_key zeroBuf zeroBuf (chars "ATTACKATDAWN") [0] (chars "LEMON") [0, 0]
    MODE_ENCRYPT 512 (List.length_replicate 512 0) (List.length_replicate 512 0)
    (by decide) (by decide) (by decide) (by decide) (by decide) (by decide) (by decide)
    (by decide) (by decide)

/-- C3, at the failing input. Text "ATTACKATDAWN", key "LEMONADES" (9 letters), selector 'e':
the session open, write, configure, read(12) hands out "LXFOPKDXOEIB", the text encrypted
under "LEMONADE", because `myIoCtl` copies `sizeof(ds->key)` = 8 bytes of the key; `encrypt`
on the two strings leaves "LXFOPKDXVLAZ". -/
theorem session_nine_letter_key :
    session zeroBuf zeroBuf [Call.write (cstr "ATTACKATDAWN") 12,
        Call.ioctl MODE_ENCRYPT (cstr "LEMONADES"), Call.read true 512 12]
      = some [(12, []), (0, []), (12, chars "LXFOPKDXOEIB")]
    ∧ encrypt true (cstr "ATTACKATDAWN") (cstr "LEMONADES") = some (0, cstr "LXFOPKDXVLAZ") := by
  decide

/-! ## Read without configure
-/

/-- C4, the counterexample. On a freshly opened device, after write("Hello") and without any
configure, read(5) returns 5 bytes of data, not -1, whether the fresh key buffer is
zero-filled or holds a stale string: `myOpen` sets the cipher flag to 0, the value of the
decrypt mode. -/
theorem read_unconfigured_returns_data :
    session zeroBuf zeroBuf [Call.write (cstr "Hello") 5, Call.read true 512 5]
      = some [(5, []), (5, chars "Uxeeh")]
    ∧ session zeroBuf staleKeyBuf [Call.write (cstr "Hello") 5, Call.read true 512 5]
      = some [(5, []), (5, chars "Ttixd")]
    ∧ decrypt true (cstr "Hello") (cstr "old") = some (0, cstr "Ttixd") := by
  decide

/-- C4, as amended. A read on a session on which no configure call has succeeded does not
fail: `myOpen` sets the cipher flag to 0, which is the decrypt mode, and writes keep it.  In
every state reached by open followed by any number of writes the cipher flag is 0, and after
one more write of a text `T` (no NUL, 1 to `BUFFER_SIZE - 1` bytes), with a key buffer `k0`
(as `vmalloc` left it) that holds a NUL, read(n) at the cursor 0 returns
`min(n, BUFFER_SIZE, len(T))` bytes: the first bytes of what `decrypt` makes of `T` under
the contents of the key buffer. -/
theorem read_without_configure_decrypts (t0 k0 : List Int) (len : Nat)
    (ws : List (List Int × Nat))
    (T tmore : List Int) (ucap hsize : Nat) (fs0 fs : file) (rs : List (Int × List Int))
    (ht0 : t0.length = BUFFER_SIZE) (hk0 : k0.length = BUFFER_SIZE)
    (hlen : strlen k0 = some len)
    (hopen : openFile t0 k0 = some fs0)
    (hrun : run fs0 (ws.map (fun w => Call.write w.1 w.2)) = some (rs, fs))
    (h0 : 0 < T.length) (hTl : T.length < BUFFER_SIZE) (hT : ∀ c ∈ T, c ≠ 0)
    (hcap : readCount hsize T.length 0 ≤ ucap) :
    fs.private_data.cipher = 0 ∧ fs.f_pos = 0
      ∧ ∃ D, D.length = T.length
          ∧ (∀ rest, decrypt true (T ++ 0 :: rest) k0 = some (0, D ++ 0 :: rest))
          ∧ (run fs [Call.write (T ++ tmore) T.length, Call.read true ucap hsize]).map Prod.fst
              = some [((T.length : Int), []),
                  ((readCount hsize T.length 0 : Int), D.take (readCount hsize T.length 0))] := by
  rw [openFile_eq] at hopen
  simp only [Option.some.injEq] at hopen
  subst hopen
  obtain ⟨i1, i2, i3, i4⟩ := run_writes_inv ws _ _ rs hrun
  simp only at i1 i2 i3 i4
  have hw := myWrite_ok fs.private_data T tmore (by rw [i4]; exact ht0) h0 hTl
  obtain ⟨hd, hr⟩ := myRead_decrypt_stream
    { fs.private_data with text := T ++ 0 :: fs.private_data.text.drop (T.length + 1) }
    T (fs.private_data.text.drop (T.length + 1)) len ucap hsize 0 i2 rfl hT
    (by rw [i1]; exact hlen) (fun _ => by simp only [i1, hk0]; omega) hcap
  simp only [i1] at hd hr
  refine ⟨i2, i3, applyStream decryptChar (keyStream k0 len) 0 T,
    applyStream_length _ _ _ _, ?_, ?_⟩
  · intro rest
    exact cipher_eq decryptChar T rest k0 len hT hlen (fun _ => by rw [hk0]; omega)
  · simp only [run, step, hw, i3, i1, hr, Option.map_some', List.drop_zero]

theorem read_without_configure_decrypts_witness :
    writtenFile.private_data.cipher = 0 ∧ writtenFile.f_pos = 0
      ∧ ∃ D, D.length = (chars "Hello").length
          ∧ (∀ rest, decrypt true (chars "Hello" ++ 0 :: rest) staleKeyBuf
              = some (0, D ++ 0 :: rest))
          ∧ (run writtenFile [Call.write (chars "Hello" ++ [0]) (chars "Hello").length,
                 Call.read true 512 5]).map Prod.fst
              = some [(((chars "Hello").length : Int), []),
                  ((readCount 5 (chars "Hello").length 0 : Int),
                    D.take (readCount 5 (chars "Hello").length 0))] :=
  read_without_configure_decrypts zeroBuf staleKeyBuf 3
    [(cstr "abc", 3)] (chars "Hello") [0] 512 5
    { private_data := { text := zeroBuf, key := staleKeyBuf, cipher := 0 }, f_pos := 0 }
    writtenFile [(3, [])]
    (by decide) (by decide) (by decide) (by decide) (by decide)
    (by decide) (by decide) (by decide) (by decide)

/-! ## Chunked reads
-/

/-- C5, at the failing input. "Hello, World!" with key "key", selector 'e', read in chunks of
5: the chunks are "Rijvs", ", Siz", "fh!" and then nothing, while one read of 13 bytes from the
same starting state returns "Rijvs, Uyvjn!": the second and third chunk were encrypted twice
and three times. -/
theorem chunked_reads_differ :
    session zeroBuf zeroBuf [Call.write (cstr "Hello, World!") 13,
        Call.ioctl MODE_ENCRYPT (cstr "key" ++ [0, 0, 0, 0]),
        Call.read true 512 5, Call.read true 512 5, Call.read true 512 5, Call.read true 512 5]
      = some [(13, []), (0, []), (5, chars "Rijvs"), (5, chars ", Siz"), (3, chars "fh!"), (0, [])]
    ∧ session zeroBuf zeroBuf [Call.write (cstr "Hello, World!") 13,
        Call.ioctl MODE_ENCRYPT (cstr "key" ++ [0, 0, 0, 0]), Call.read true 512 13]
      = some [(13, []), (0, []), (13, chars "Rijvs, Uyvjn!")]
    ∧ chars "Rijvs" ++ chars ", Siz" ++ chars "fh!" ≠ chars "Rijvs, Uyvjn!" := by
  decide

/-- What successive reads hand out: every read runs the cipher over the stored text again
before it copies.  After open, write(T) and configure(mode, K), for a text `T` without NUL of
1 to `BUFFER_SIZE - 1` bytes and a non-empty key `K` without NUL of fewer than `SIZEOF_KEY`
bytes (with `SIZEOF_KEY` readable bytes at the key pointer), the `i`-th of `m` successive
reads of `hsize` bytes (`i` = 0, 1, ...) returns
`readCount` bytes taken at the cursor `cursorAfter hsize len(T) 0 i` from
`textAfter f K T (i + 1)`, the text put through the cipher `i + 1` times; the cursor is
`min (i * min hsize BUFFER_SIZE) len(T)`, and the text put through the cipher once is what
`encrypt` (`decrypt`) leaves. -/
theorem chunked_reads_reapply_cipher (t0 k0 T tmore K more : List Int)
    (command ucap hsize m : Nat)
    (ht0 : t0.length = BUFFER_SIZE) (hk0 : k0.length = BUFFER_SIZE)
    (h0 : 0 < T.length) (hTl : T.length < BUFFER_SIZE) (hT : ∀ c ∈ T, c ≠ 0)
    (hne : K ≠ []) (hK : ∀ k ∈ K, k ≠ 0) (hKl : K.length < SIZEOF_KEY)
    (hmore : SIZEOF_KEY ≤ (K ++ 0 :: more).length)
    (hc : command = MODE_ENCRYPT ∨ command = MODE_DECRYPT)
    (hcap : readCount hsize T.length 0 ≤ ucap) :
    session t0 k0 ([Call.write (T ++ tmore) T.length, Call.ioctl command (K ++ 0 :: more)]
        ++ List.replicate m (Call.read true ucap hsize))
      = some ([((T.length : Int), []), (0, [])] ++ (List.range m).map (fun i =>
            ((readCount hsize T.length (cursorAfter hsize T.length 0 i) : Int),
             ((textAfter (charFn (cipherOf command)) K T (i + 1)).drop
                  (cursorAfter hsize T.length 0 i)).take
                (readCount hsize T.length (cursorAfter hsize T.length 0 i)))))
    ∧ (∀ i, cursorAfter hsize T.length 0 i = min (i * min hsize BUFFER_SIZE) T.length)
    ∧ cipher (charFn (cipherOf command)) true (T ++ [0]) (K ++ [0])
        = some (0, textAfter (charFn (cipherOf command)) K T 1 ++ [0]) := by
  refine ⟨?_, cursorAfter_zero_start hsize T.length, cipher_buffers _ T [] K [] hT hK hne⟩
  rw [session_eq, run_generation
    { private_data := { text := t0, key := k0, cipher := 0 }, f_pos := 0 }
    T tmore K more command ucap hsize m ht0 hk0 h0 hTl hT hne hK hKl hmore hc hcap]
  rfl

theorem chunked_reads_reapply_cipher_instance :
    session zeroBuf zeroBuf ([Call.write (chars "Hello, World!" ++ [0]) 13,
          Call.ioctl MODE_ENCRYPT (chars "key" ++ 0 :: [0, 0, 0, 0])]
        ++ List.replicate 4 (Call.read true 512 5))
      = some ([(13, []), (0, [])] ++ (List.range 4).map (fun i =>
            ((readCount 5 13 (cursorAfter 5 13 0 i) : Int),
             ((textAfter (charFn (cipherOf MODE_ENCRYPT)) (chars "key") (chars "Hello, World!")
                  (i + 1)).drop (cursorAfter 5 13 0 i)).take
                (readCount 5 13 (cursorAfter 5 13 0 i)))))
    ∧ (∀ i, cursorAfter 5 13 0 i = min (i * min 5 BUFFER_SIZE) 13)
    ∧ cipher (charFn (cipherOf MODE_ENCRYPT)) true (chars "Hello, World!" ++ [0])
          (chars "key" ++ [0])
        = some (0, textAfter (charFn (cipherOf MODE_ENCRYPT)) (chars "key")
            (chars "Hello, World!") 1 ++ [0]) :=
  chunked_reads_reapply_cipher zeroBuf zeroBuf (chars "Hello, World!") [0] (chars "key")
    [0, 0, 0, 0] MODE_ENCRYPT 512 5 4 (List.length_replicate 512 0) (List.length_replicate 512 0)
    (by decide) (by decide) (by decide) (by decide) (by decide) (by decide) (by decide)
    (by decide) (by decide)

/-! ## Read counts
-/

/-- Read draining counts with buffers of exactly `BUFFER_SIZE` bytes and a key that fits into
the bytes configure copies, for a text that leaves room for its terminator: after open,
write(T) and a successful configure with a key that fits, `m` successive reads of `hsize` bytes
starting at cursor 0 return, the `i`-th of them, `min(hsize, BUFFER_SIZE, len(T) - cursor)`
bytes at cursor `min(i * min(hsize, BUFFER_SIZE), len(T))`; the counts of the `m` reads add
up to `min(m * min(hsize, BUFFER_SIZE), len(T))`, which is `len(T)` as soon as
`len(T) ≤ m * min(hsize, BUFFER_SIZE)`, and a read at cursor `len(T)` returns 0. -/
theorem read_counts (t0 k0 T tmore K more : List Int) (command ucap hsize m : Nat)
    (ht0 : t0.length = BUFFER_SIZE) (hk0 : k0.length = BUFFER_SIZE)
    (h0 : 0 < T.length) (hTl : T.length < BUFFER_SIZE) (hT : ∀ c ∈ T, c ≠ 0)
    (hne : K ≠ []) (hK : ∀ k ∈ K, k ≠ 0) (hKl : K.length < SIZEOF_KEY)
    (hmore : SIZEOF_KEY ≤ (K ++ 0 :: more).length)
    (hc : command = MODE_ENCRYPT ∨ command = MODE_DECRYPT)
    (hcap : readCount hsize T.length 0 ≤ ucap) :
    ∃ rs, session t0 k0 ([Call.write (T ++ tmore) T.length, Call.ioctl command (K ++ 0 :: more)]
          ++ List.replicate m (Call.read true ucap hsize))
        = some ([((T.length : Int), []), (0, [])] ++ rs)
      ∧ rs.map Prod.fst = (List.range m).map (fun i =>
          ((readCount hsize T.length (min (i * min hsize BUFFER_SIZE) T.length) : Nat) : Int))
      ∧ (rs.map Prod.fst).sum = ((min (m * min hsize BUFFER_SIZE) T.length : Nat) : Int)
      ∧ readCount hsize T.length T.length = 0 := by
  refine ⟨(List.range m).map (fun i =>
      ((readCount hsize T.length (cursorAfter hsize T.length 0 i) : Int),
       ((textAfter (charFn (cipherOf command)) K T (i + 1)).drop
            (cursorAfter hsize T.length 0 i)).take
          (readCount hsize T.length (cursorAfter hsize T.length 0 i)))), ?_, ?_, ?_, ?_⟩
  · rw [session_eq, run_generation
      { private_data := { text := t0, key := k0, cipher := 0 }, f_pos := 0 }
      T tmore K more command ucap hsize m ht0 hk0 h0 hTl hT hne hK hKl hmore hc hcap]
    rfl
  · simp only [List.map_map, Function.comp_def, cursorAfter_zero_start]
  · simp only [List.map_map, Function.comp_def]
    rw [← cursorAfter_zero_start, ← sum_readCounts]
    simp only [Nat.cast_list_sum, List.map_map, Function.comp_def]
  · unfold readCount
    omega

theorem read_counts_instance :
    ∃ rs, session zeroBuf zeroBuf ([Call.write (chars "Hello, World!" ++ [0]) 13,
            Call.ioctl MODE_ENCRYPT (chars "key" ++ 0 :: [0, 0, 0, 0])]
          ++ List.replicate 4 (Call.read true 512 5))
        = some ([(13, []), (0, [])] ++ rs)
      ∧ rs.map Prod.fst = [5, 5, 3, 0]
      ∧ (rs.map Prod.fst).sum = 13
      ∧ readCount 5 13 13 = 0 :=
  read_counts zeroBuf zeroBuf (chars "Hello, World!") [0] (chars "key") [0, 0, 0, 0]
    MODE_ENCRYPT 512 5 4 (List.length_replicate 512 0) (List.length_replicate 512 0)
    (by decide) (by decide) (by decide) (by decide) (by decide) (by decide) (by decide)
    (by decide) (by decide)

/-- Why the text buffer is taken with the memory behind it: when no more than `BUFFER_SIZE`
bytes can be accessed at the text pointer, a write of `BUFFER_SIZE` bytes stores its
terminator outside of them, and the embedding gives the session no result. -/
theorem session_full_buffer :
    session zeroBuf zeroBuf [Call.write (List.replicate 512 65) 512,
        Call.ioctl MODE_ENCRYPT (cstr "key" ++ [0, 0, 0, 0]), Call.read true 512 5] = none := by
  decide

/-! ## Two generations on one handle
-/

/-- C7, the counterexample. First generation "HELLO" under key "KEY", read until a read
returns 0; then write("WORLD"), configure('e', "KEY") and read(5): that read returns 0 bytes,
the end-of-data signal, because the write left the offset at 5. -/
theorem second_generation_reads_nothing :
    session zeroBuf zeroBuf [Call.write (cstr "HELLO") 5,
        Call.ioctl MODE_ENCRYPT (cstr "KEY" ++ [0, 0, 0, 0]),
        Call.read true 512 5, Call.read true 512 5,
        Call.write (cstr "WORLD") 5, Call.ioctl MODE_ENCRYPT (cstr "KEY" ++ [0, 0, 0, 0]),
        Call.read true 512 5]
      = some [(5, []), (0, []), (5, chars "RIJVS"), (0, []), (5, []), (0, []), (0, [])] := by
  decide

/-- C7, as amended. A write leaves the read cursor where it is. After a first generation
write(T1), configure, `m` reads of `hsize` bytes that drain it (`len(T1) ≤ m * min hsize
BUFFER_SIZE`), the cursor is `len(T1)`; after write(T2), configure(mode, K2) the next read of
`n` bytes returns `min(n, BUFFER_SIZE, len(T2) - len(T1))` bytes, taken at offset `len(T1)`
from what `encrypt` (`decrypt`) makes of `T2` under `K2`: bytes of the second generation
only, and none at all (end of data) when `len(T2) ≤ len(T1)`.  Texts are without NUL and
of 1 to `BUFFER_SIZE - 1` bytes, keys are non-empty, without NUL and shorter than
`SIZEOF_KEY`, with `SIZEOF_KEY` readable bytes at the key pointer. -/
theorem second_generation_keeps_cursor (t0 k0 T1 tmore1 K1 more1 T2 tmore2 K2 more2 : List Int)
    (command1 ucap1 hsize m command2 ucap2 n : Nat)
    (ht0 : t0.length = BUFFER_SIZE) (hk0 : k0.length = BUFFER_SIZE)
    (h01 : 0 < T1.length) (hTl1 : T1.length < BUFFER_SIZE) (hT1 : ∀ c ∈ T1, c ≠ 0)
    (hne1 : K1 ≠ []) (hK1 : ∀ k ∈ K1, k ≠ 0) (hKl1 : K1.length < SIZEOF_KEY)
    (hmore1 : SIZEOF_KEY ≤ (K1 ++ 0 :: more1).length)
    (hc1 : command1 = MODE_ENCRYPT ∨ command1 = MODE_DECRYPT)
    (hcap1 : readCount hsize T1.length 0 ≤ ucap1)
    (hdrain : T1.length ≤ m * min hsize BUFFER_SIZE)
    (h02 : 0 < T2.length) (hTl2 : T2.length < BUFFER_SIZE) (hT2 : ∀ c ∈ T2, c ≠ 0)
    (hne2 : K2 ≠ []) (hK2 : ∀ k ∈ K2, k ≠ 0) (hKl2 : K2.length < SIZEOF_KEY)
    (hmore2 : SIZEOF_KEY ≤ (K2 ++ 0 :: more2).length)
    (hc2 : command2 = MODE_ENCRYPT ∨ command2 = MODE_DECRYPT)
    (hcap2 : readCount n T2.length T1.length ≤ ucap2) :
    ∃ rs1, rs1.length = m + 2
      ∧ session t0 k0
          (([Call.write (T1 ++ tmore1) T1.length, Call.ioctl command1 (K1 ++ 0 :: more1)]
              ++ List.replicate m (Call.read true ucap1 hsize))
            ++ ([Call.write (T2 ++ tmore2) T2.length, Call.ioctl command2 (K2 ++ 0 :: more2)]
              ++ List.replicate 1 (Call.read true ucap2 n)))
        = some (rs1 ++ [((T2.length : Int), []), (0, []),
            ((readCount n T2.length T1.length : Int),
              ((cipherStr (charFn (cipherOf command2)) T2 K2).drop T1.length).take
                (readCount n T2.length T1.length))])
      ∧ readCount n T2.length T1.length = min (min n BUFFER_SIZE) (T2.length - T1.length) := by
  have hg1 := run_generation
    { private_data := { text := t0, key := k0, cipher := 0 }, f_pos := 0 }
    T1 tmore1 K1 more1 command1 ucap1 hsize m ht0 hk0 h01 hTl1 hT1 hne1 hK1 hKl1 hmore1 hc1 hcap1
  have hcur : cursorAfter hsize T1.length 0 m = T1.length := by
    rw [cursorAfter_zero_start]
    omega
  obtain ⟨hl1, -⟩ := textAfter_props (charFn (cipherOf command1))
    (charFn_ne_zero (cipherOf command1)) K1 T1 hT1 hK1 hne1 m
  obtain ⟨hlt, hlk⟩ := generation_lengths
    { private_data := { text := t0, key := k0, cipher := 0 }, f_pos := 0 }
    T1 (textAfter (charFn (cipherOf command1)) K1 T1 m) K1 more1 ht0 hk0 hTl1 hl1 hKl1 hmore1
  have hg2 := run_generation
    { private_data :=
        { text := textAfter (charFn (cipherOf command1)) K1 T1 m ++ 0 :: t0.drop (T1.length + 1),
          key := K1 ++ 0 :: (more1.take (SIZEOF_KEY - (K1.length + 1)) ++ k0.drop SIZEOF_KEY),
          cipher := cipherOf command1 },
      f_pos := cursorAfter hsize T1.length 0 m }
    T2 tmore2 K2 more2 command2 ucap2 n 1 hlt hlk h02 hTl2 hT2 hne2 hK2 hKl2 hmore2 hc2
    (by rw [hcur]; exact hcap2)
  have hex : ∃ rs1 : List (Int × List Int), rs1.length = m + 2 ∧
      run { private_data := { text := t0, key := k0, cipher := 0 }, f_pos := 0 }
        ([Call.write (T1 ++ tmore1) T1.length, Call.ioctl command1 (K1 ++ 0 :: more1)]
          ++ List.replicate m (Call.read true ucap1 hsize))
        = some (rs1,
          { private_data :=
              { text := textAfter (charFn (cipherOf command1)) K1 T1 m
                  ++ 0 :: t0.drop (T1.length + 1),
                key := K1 ++ 0 :: (more1.take (SIZEOF_KEY - (K1.length + 1))
                  ++ k0.drop SIZEOF_KEY),
                cipher := cipherOf command1 },
            f_pos := cursorAfter hsize T1.length 0 m }) := by
    refine ⟨_, ?_, hg1⟩
    simp only [List.length_append, List.length_cons, List.length_nil, List.length_map,
      List.length_range]
    omega
  obtain ⟨rs1, hrs1, hg1a⟩ := hex
  refine ⟨rs1, hrs1, ?_, rfl⟩
  rw [session_eq, run_append _ _ _ _ _ hg1a, hg2]
  have hr1 : List.range 1 = [0] := rfl
  simp only [Option.map_some', hr1, List.map_cons, List.map_nil, cursorAfter_none, hcur]
  rfl

theorem second_generation_keeps_cursor_witness :
    ∃ rs1, rs1.length = 2 + 2
      ∧ session zeroBuf zeroBuf
          (([Call.write (chars "HELLO" ++ [0]) 5,
              Call.ioctl MODE_ENCRYPT (chars "KEY" ++ 0 :: [0, 0, 0, 0])]
              ++ List.replicate 2 (Call.read true 512 5))
            ++ ([Call.write (chars "WORLDWIDE" ++ [0]) 9,
              Call.ioctl MODE_ENCRYPT (chars "KEY" ++ 0 :: [0, 0, 0, 0])]
              ++ List.replicate 1 (Call.read true 512 9)))
        = some (rs1 ++ [(9, []), (0, []),
            ((readCount 9 9 5 : Int),
              ((cipherStr (charFn (cipherOf MODE_ENCRYPT)) (chars "WORLDWIDE")
                (chars "KEY")).drop 5).take (readCount 9 9 5))])
      ∧ readCount 9 9 5 = min (min 9 BUFFER_SIZE) (9 - 5) :=
  second_generation_keeps_cursor zeroBuf zeroBuf (chars "HELLO") [0] (chars "KEY") [0, 0, 0, 0]
    (chars "WORLDWIDE") [0] (chars "KEY") [0, 0, 0, 0] MODE_ENCRYPT 512 5 2 MODE_ENCRYPT 512 9
    (List.length_replicate 512 0) (List.length_replicate 512 0)
    (by decide) (by decide) (by decide) (by decide) (by decide) (by decide) (by decide)
    (by decide) (by decide) (by decide)
    (by decide) (by decide) (by decide) (by decide) (by decide) (by decide) (by decide)
    (by decide) (by decide)

/-! ## Write and the capacity
-/

/-- A write of fewer than `BUFFER_SIZE` bytes returns the byte count and leaves the payload
followed by a terminator in the text buffer; a write of 0 bytes returns 0 and changes
nothing. -/
theorem myWrite_short (ds : myds) (T more : List Int) (htl : ds.text.length = BUFFER_SIZE)
    (hT : T.length < BUFFER_SIZE) :
    ∃ ds1, myWrite ds (T ++ more) T.length = some ((T.length : Int), ds1)
      ∧ (0 < T.length → ds1.text.take (T.length + 1) = T ++ [0])
      ∧ ds1.text.length = BUFFER_SIZE ∧ ds1.key = ds.key ∧ ds1.cipher = ds.cipher
      ∧ (T.length = 0 → ds1 = ds) := by
  rcases Nat.eq_zero_or_pos T.length with h0 | h0
  · refine ⟨ds, ?_, fun h => by omega, htl, rfl, rfl, fun _ => rfl⟩
    unfold myWrite
    rw [h0, if_pos (Nat.le_refl 0)]
  · refine ⟨_, myWrite_ok ds T more htl h0 hT, fun _ => ?_, ?_, rfl, rfl, fun h => by omega⟩
    · simp only
      rw [List.take_append_eq_append_take, List.take_of_length_le (by omega)]
      simp
    · simp only [List.length_append, List.length_cons, List.length_drop, htl]
      omega

theorem myWrite_short_instance :
    ∃ ds1, myWrite { text := zeroBuf, key := zeroBuf, cipher := 0 } (chars "Hello" ++ [0]) 5
        = some (5, ds1)
      ∧ (0 < 5 → ds1.text.take (5 + 1) = chars "Hello" ++ [0])
      ∧ ds1.text.length = BUFFER_SIZE ∧ ds1.key = zeroBuf ∧ ds1.cipher = 0
      ∧ (5 = 0 → ds1 = { text := zeroBuf, key := zeroBuf, cipher := 0 }) :=
  myWrite_short { text := zeroBuf, key := zeroBuf, cipher := 0 } (chars "Hello") [0]
    (List.length_replicate 512 0) (by decide)

/-- C8, at the failing inputs. For every payload of `BUFFER_SIZE` bytes or more (readable at
the user pointer), `myWrite` clamps `hsize` to `BUFFER_SIZE`, fills the whole text buffer and
then stores the terminator at index `BUFFER_SIZE`, one past the end of the `BUFFER_SIZE`
bytes of the buffer: an access outside the buffer, `none` in this embedding. -/
theorem myWrite_terminator_out_of_bounds (ds : myds) (buf : List Int) (hsize : Nat)
    (htl : ds.text.length = BUFFER_SIZE) (hn : BUFFER_SIZE ≤ hsize)
    (hbuf : BUFFER_SIZE ≤ buf.length) :
    myWrite ds buf hsize = none := by
  have hb : (0 : Nat) < BUFFER_SIZE := by decide
  unfold myWrite copy_from_user
  rw [if_neg (by omega)]
  simp only
  have hcl : (if hsize > BUFFER_SIZE then BUFFER_SIZE else hsize) = BUFFER_SIZE := by
    split <;> omega
  rw [hcl, if_pos (by omega)]
  simp only [Nat.min_eq_left hbuf, Nat.sub_self, gt_iff_lt, Nat.lt_irrefl,
    if_false]
  rw [if_neg]
  simp only [List.length_append, List.length_take, List.length_replicate, List.length_drop, htl]
  omega

theorem myWrite_terminator_out_of_bounds_witness :
    myWrite { text := zeroBuf, key := zeroBuf, cipher := 0 } (List.replicate 512 65) 512 = none :=
  myWrite_terminator_out_of_bounds { text := zeroBuf, key := zeroBuf, cipher := 0 }
    (List.replicate 512 65) 512 (List.length_replicate 512 0) (by decide)
    (by rw [List.length_replicate]; decide)

/-! ## Configure with an unknown selector keeps the mode
-/

/-- C9. Configure with an unrecognised selector fails and keeps the mode: for every session
state (the key buffer has its `BUFFER_SIZE` bytes), every selector other than 'e' and 'd' and
every key argument, `myIoCtl` returns -1 and the cipher flag afterwards is the cipher flag
before. -/
theorem ioctl_invalid_selector_keeps_mode (ds : myds) (command : Nat) (data : List Int)
    (hkey : ds.key.length = BUFFER_SIZE)
    (he : command ≠ MODE_ENCRYPT) (hd : command ≠ MODE_DECRYPT) :
    ∃ ds1, myIoCtl ds command data = some (-1, ds1) ∧ ds1.cipher = ds.cipher := by
  unfold myIoCtl copy_from_user
  rw [if_pos (by rw [hkey]; decide)]
  simp only
  split_ifs <;> exact ⟨_, rfl, rfl⟩

theorem ioctl_invalid_selector_keeps_mode_witness :
    ∃ ds1, myIoCtl { text := List.replicate 512 0, key := List.replicate 512 0, cipher := 1 }
        120 (cstr "key" ++ [0, 0, 0, 0]) = some (-1, ds1) ∧ ds1.cipher = 1 :=
  ioctl_invalid_selector_keeps_mode
    { text := List.replicate 512 0, key := List.replicate 512 0, cipher := 1 }
    120 (cstr "key" ++ [0, 0, 0, 0]) (List.length_replicate 512 0) (by decide) (by decide)

/-! ## What a failed configure leaves behind
-/

/-- C10, the counterexample. After configure('e', "B"), a configure with the selector 'x'
and the key "C" returns -1, yet the key buffer then starts with "C": the read that follows
returns "JGNNQ", "HELLO" encrypted under "C", where the previously configured key "B" gives
"IFMMP". -/
theorem failed_configure_changes_key :
    session zeroBuf zeroBuf [Call.write (cstr "HELLO") 5,
        Call.ioctl MODE_ENCRYPT (cstr "B" ++ [0, 0, 0, 0, 0, 0]),
        Call.ioctl 120 (cstr "C" ++ [0, 0, 0, 0, 0, 0]), Call.read true 512 5]
      = some [(5, []), (0, []), (-1, []), (5, chars "JGNNQ")]
    ∧ session zeroBuf zeroBuf [Call.write (cstr "HELLO") 5,
        Call.ioctl MODE_ENCRYPT (cstr "B" ++ [0, 0, 0, 0, 0, 0]), Call.read true 512 5]
      = some [(5, []), (0, []), (5, chars "IFMMP")]
    ∧ (myIoCtl { text := zeroBuf, key := cstr "B" ++ List.replicate 510 0, cipher := 1 } 120
          (cstr "C" ++ [0, 0, 0, 0, 0, 0])).map (fun r => r.2.key.take 2)
      = some (cstr "C") := by
  decide

/-- C10, as amended. A configure call with a selector outside {'e','d'} returns -1 and leaves
the text buffer and the cipher flag as they were, but not the key buffer: before the selector
is looked at, the leading `SIZEOF_KEY` bytes of the key buffer are replaced by what
`copy_from_user` makes of the key argument (its bytes, zero-padded where they cannot be
read). -/
theorem ioctl_invalid_selector_overwrites_key (ds : myds) (command : Nat) (data : List Int)
    (hkey : ds.key.length = BUFFER_SIZE)
    (he : command ≠ MODE_ENCRYPT) (hd : command ≠ MODE_DECRYPT) :
    myIoCtl ds command data
      = some (-1, { text := ds.text,
                    key := data.take SIZEOF_KEY
                      ++ List.replicate (SIZEOF_KEY - min SIZEOF_KEY data.length) 0
                      ++ ds.key.drop SIZEOF_KEY,
                    cipher := ds.cipher }) := by
  unfold myIoCtl copy_from_user
  rw [if_pos (by rw [hkey]; decide)]
  simp only
  split_ifs <;> rfl

theorem ioctl_invalid_selector_overwrites_key_witness :
    myIoCtl { text := zeroBuf, key := staleKeyBuf, cipher := 1 } 120
        (cstr "C" ++ [0, 0, 0, 0, 0, 0])
      = some (-1, { text := zeroBuf,
                    key := (cstr "C" ++ [0, 0, 0, 0, 0, 0]).take SIZEOF_KEY
                      ++ List.replicate
                          (SIZEOF_KEY - min SIZEOF_KEY (cstr "C" ++ [0, 0, 0, 0, 0, 0]).length) 0
                      ++ staleKeyBuf.drop SIZEOF_KEY,
                    cipher := 1 }) :=
  ioctl_invalid_selector_overwrites_key { text := zeroBuf, key := staleKeyBuf, cipher := 1 } 120
    (cstr "C" ++ [0, 0, 0, 0, 0, 0]) (by decide) (by decide) (by decide)

/-! ## Further lemmas: the resolved key, the characters, the cursor
-/

theorem streamFrom_ne_zero (ks : Nat → Int) (hks : ∀ j, ks j ≠ 0) (n j : Nat) :
    ∀ c ∈ streamFrom ks n j, c ≠ 0 := by
  induction n generalizing j with
  | zero => simp [streamFrom]
  | succ n ih =>
    intro c hc
    simp only [streamFrom, List.mem_cons] at hc
    rcases hc with hc | hc
    · rw [hc]; exact hks j
    · exact ih (j + 1) c hc

theorem getD_cycle (K : List Int) (hne : K ≠ []) (j : Nat) :
    K[j % K.length]? = some (K.getD (j % K.length) 0) := by
  have hpos : 0 < K.length := List.length_pos.mpr hne
  exact getElem?_eq_getD K _ (Nat.mod_lt _ hpos)

theorem applyStream_no_letters (f : Int → Int → Int) (ks : Nat → Int) (j : Nat) (T : List Int)
    (hT : ∀ c ∈ T, ¬ isLetter c) : applyStream f ks j T = T := by
  induction T generalizing j with
  | nil => rfl
  | cons c cs ih =>
    have hc : ¬ isLetter c := hT c (by simp)
    simp only [applyStream, if_neg hc, ih j (fun d hd => hT d (by simp [hd]))]

theorem strlen_bound (T rest : List Int) :
    ∃ n, strlen (T ++ 0 :: rest) = some n ∧ n ≤ T.length := by
  induction T with
  | nil => exact ⟨0, by simp [strlen], Nat.le_refl _⟩
  | cons c cs ih =>
    obtain ⟨n, hn, hle⟩ := ih
    by_cases hc : c = 0
    · exact ⟨0, by simp [strlen, hc], Nat.zero_le _⟩
    · exact ⟨n + 1, by simp [strlen, hc, hn], by simp only [List.length_cons]; omega⟩

/-- On a text without a letter before its terminator the cipher changes nothing, whether
`vmalloc` succeeds or not. -/
theorem cipher_no_letters (f : Int → Int → Int) (vm : Bool) (text key : List Int) (n len : Nat)
    (hn : strlen text = some n) (hT : ∀ c ∈ text.take n, ¬ isLetter c)
    (hlen : strlen key = some len) (hk : len = 0 → n ≤ key.length) :
    ∃ r, cipher f vm text key = some (r, text) ∧ (vm = true → r = 0) := by
  cases vm with
  | false => exact ⟨-1, cipher_nomem f text key n hn, fun h => absurd h (by decide)⟩
  | true =>
    obtain ⟨rest, h1, h2, h3⟩ := strlen_spec text n hn
    refine ⟨0, ?_, fun _ => rfl⟩
    have := cipher_eq f (text.take n) rest key len h3 hlen (by rw [h2]; exact hk)
    rw [applyStream_no_letters f _ 0 _ hT, ← h1] at this
    exact this

theorem decryptChar_lower (c k : Int) (hc : 97 ≤ c ∧ c ≤ 122) (hk : isLetter k) :
    97 ≤ decryptChar c k ∧ decryptChar c k ≤ 122 ∧
      encryptChar (decryptChar c k) k = c := by
  have e : decryptChar c k
      = (c - 97 - ((if 65 ≤ k ∧ k ≤ 90 then k + (97 - 65) else k) - 97) + 26) % 26 + 97 := by
    unfold decryptChar
    rw [if_pos hc]
    simp only
    rw [Int.tmod_eq_emod (by split <;> omega) (by decide)]
  have b : 97 ≤ decryptChar c k ∧ decryptChar c k ≤ 122 := by
    rw [e]; omega
  refine ⟨b.1, b.2, ?_⟩
  unfold encryptChar
  rw [if_pos b]
  simp only
  rw [Int.tmod_eq_emod (by split <;> omega) (by decide), e]
  split <;> omega

theorem decryptChar_upper (c k : Int) (hc : 65 ≤ c ∧ c ≤ 90) (hk : isLetter k) :
    65 ≤ decryptChar c k ∧ decryptChar c k ≤ 90 ∧
      encryptChar (decryptChar c k) k = c := by
  have hn : ¬ (97 ≤ c ∧ c ≤ 122) := by omega
  have e : decryptChar c k
      = (c - 65 - ((if 97 ≤ k ∧ k ≤ 122 then k - (97 - 65) else k) - 65) + 26) % 26 + 65 := by
    unfold decryptChar
    rw [if_neg hn, if_pos hc]
    simp only
    rw [Int.tmod_eq_emod (by split <;> omega) (by decide)]
  have b : 65 ≤ decryptChar c k ∧ decryptChar c k ≤ 90 := by
    rw [e]; omega
  have bn : ¬ (97 ≤ decryptChar c k ∧ decryptChar c k ≤ 122) := by omega
  refine ⟨b.1, b.2, ?_⟩
  unfold encryptChar
  rw [if_neg bn, if_pos b]
  simp only
  rw [Int.tmod_eq_emod (by split <;> omega) (by decide), e]
  split <;> omega

theorem encryptChar_not_letter (c k : Int) (hc : ¬ isLetter c) : encryptChar c k = c := by
  unfold isLetter at hc
  unfold encryptChar
  rw [if_neg (by omega), if_neg (by omega)]

theorem decryptChar_not_letter (c k : Int) (hc : ¬ isLetter c) : decryptChar c k = c := by
  unfold isLetter at hc
  unfold decryptChar
  rw [if_neg (by omega), if_neg (by omega)]

theorem encryptChar_sameLetter (c a b : Int) (h : sameLetter a b) :
    encryptChar c a = encryptChar c b := by
  obtain ⟨ha, hb, hab⟩ := h
  unfold isLetter at ha hb
  unfold encryptChar
  split
  · simp only
    congr 3
    split <;> split <;> omega
  · split
    · simp only
      congr 3
      split <;> split <;> omega
    · rfl

theorem decryptChar_sameLetter (c a b : Int) (h : sameLetter a b) :
    decryptChar c a = decryptChar c b := by
  obtain ⟨ha, hb, hab⟩ := h
  unfold isLetter at ha hb
  unfold decryptChar
  split
  · simp only
    have : (if 65 ≤ a ∧ a ≤ 90 then a + (97 - 65) else a)
        = (if 65 ≤ b ∧ b ≤ 90 then b + (97 - 65) else b) := by
      split <;> split <;> omega
    rw [this]
  · split
    · simp only
      have : (if 97 ≤ a ∧ a ≤ 122 then a - (97 - 65) else a)
          = (if 97 ≤ b ∧ b ≤ 122 then b - (97 - 65) else b) := by
        split <;> split <;> omega
      rw [this]
    · rfl

theorem lettersBefore_zero (T : List Int) : lettersBefore T 0 = 0 := by
  simp [lettersBefore]

theorem lettersBefore_cons (d : Int) (ds : List Int) (i : Nat) :
    lettersBefore (d :: ds) (i + 1)
      = (if isLetter d then 1 else 0) + lettersBefore ds i := by
  unfold lettersBefore
  rw [List.take_succ_cons, List.filter_cons]
  by_cases hd : isLetter d
  · simp only [hd, decide_True, if_true, List.length_cons]
    omega
  · simp only [hd, decide_False, if_false, Bool.false_eq_true]
    omega

theorem applyStream_getElem? (f : Int → Int → Int) (ks : Nat → Int) (j : Nat) (T : List Int)
    (i : Nat) (c : Int) (h : T[i]? = some c) :
    (applyStream f ks j T)[i]?
      = some (if isLetter c then f c (ks (j + lettersBefore T i)) else c) := by
  induction T generalizing j i with
  | nil => simp at h
  | cons d ds ih =>
    cases i with
    | zero =>
      simp only [List.getElem?_cons_zero, Option.some.injEq] at h
      subst h
      rw [lettersBefore_zero]
      unfold applyStream
      split <;> simp
    | succ i =>
      simp only [List.getElem?_cons_succ] at h
      rw [lettersBefore_cons]
      unfold applyStream
      by_cases hd : isLetter d
      · rw [if_pos hd, if_pos hd, List.getElem?_cons_succ, ih (j + 1) i h]
        have : j + 1 + lettersBefore ds i = j + (1 + lettersBefore ds i) := by omega
        rw [this]
      · rw [if_neg hd, if_neg hd, List.getElem?_cons_succ, ih j i h]
        simp

theorem applyStream_congr_fn (f : Int → Int → Int) (ks ks2 : Nat → Int)
    (h : ∀ c j, f c (ks j) = f c (ks2 j)) (j : Nat) (T : List Int) :
    applyStream f ks j T = applyStream f ks2 j T := by
  induction T generalizing j with
  | nil => rfl
  | cons c cs ih =>
    unfold applyStream
    rw [h c j, ih (j + 1), ih j]

/-- Where each byte of the result of the cipher comes from, on C strings `T` and `K`. -/
theorem cipherStr_getElem? (f : Int → Int → Int) (T K : List Int)
    (hT : ∀ c ∈ T, c ≠ 0) (hK : ∀ k ∈ K, k ≠ 0) (hne : K ≠ [])
    (i : Nat) (c : Int) (h : T[i]? = some c) :
    (¬ isLetter c → (cipherStr f T K)[i]? = some c)
      ∧ (isLetter c → ∃ k, K[lettersBefore T i % K.length]? = some k
          ∧ (cipherStr f T K)[i]? = some (f c k)) := by
  rw [cipherStr_eq f T K hT hK hne, applyStream_getElem? f _ 0 T i c h, Nat.zero_add]
  refine ⟨fun hc => by rw [if_neg hc], fun hc => ⟨_, getD_cycle K hne _, by rw [if_pos hc]⟩⟩

theorem cipher_no_terminator (f : Int → Int → Int) (vm : Bool) (text key : List Int)
    (h : strlen text = none) : cipher f vm text key = none := by
  simp [cipher, h]

theorem forall_mem_of_getD (K : List Int) (P : Int → Prop)
    (h : ∀ i, i < K.length → P (K.getD i 0)) : ∀ k ∈ K, P k := by
  intro k hk
  obtain ⟨i, hi, rfl⟩ := List.mem_iff_getElem.mp hk
  have := h i hi
  simpa [List.getD_eq_getElem?_getD, List.getElem?_eq_getElem hi] using this

/-- The cipher does not see the case of the key's letters. -/
theorem cipher_key_case (f : Int → Int → Int) (hf : ∀ c a b, sameLetter a b → f c a = f c b)
    (vm : Bool) (text K krest K2 krest2 : List Int) (hne : K ≠ [])
    (hl : K.length = K2.length)
    (h : ∀ i, i < K.length → sameLetter (K.getD i 0) (K2.getD i 0)) :
    cipher f vm text (K ++ 0 :: krest) = cipher f vm text (K2 ++ 0 :: krest2) := by
  have hpos : 0 < K.length := List.length_pos.mpr hne
  have hne2 : K2 ≠ [] := List.length_pos.mp (by omega)
  have hK : ∀ k ∈ K, k ≠ 0 :=
    letter_ne_zero K (forall_mem_of_getD K isLetter (fun i hi => (h i hi).1))
  have hK2 : ∀ k ∈ K2, k ≠ 0 :=
    letter_ne_zero K2 (forall_mem_of_getD K2 isLetter (fun i hi => (h i (by omega)).2.1))
  cases hs : strlen text with
  | none => rw [cipher_no_terminator f vm text _ hs, cipher_no_terminator f vm text _ hs]
  | some n =>
    cases vm with
    | false => rw [cipher_nomem f text _ n hs, cipher_nomem f text _ n hs]
    | true =>
      obtain ⟨rest, h1, -, h3⟩ := strlen_spec text n hs
      rw [h1, cipher_cstring f _ rest K krest h3 hK hne,
        cipher_cstring f _ rest K2 krest2 h3 hK2 hne2]
      rw [applyStream_congr_fn f _ (fun j => K2.getD (j % K2.length) 0)
        (fun c j => hf c _ _ (by
          have := h (j % K.length) (Nat.mod_lt _ hpos)
          rw [hl] at this ⊢
          exact this))]

theorem readData_cursor (ds ds1 : myds) (ucap hsize off off1 : Nat) (r : Int) (out : List Int)
    (h : readData ds ucap hsize off = some (r, out, ds1, off1)) :
    ds1 = ds ∧ off ≤ off1
      ∧ (off < off1 → ∃ n, strlen ds1.text = some n ∧ off1 ≤ n ∧ r = ((off1 - off : Nat) : Int)) := by
  unfold readData at h
  cases hs : strlen ds.text with
  | none => rw [hs] at h; exact absurd h (by simp)
  | some dataSize =>
    rw [hs] at h
    simp only at h
    by_cases h0 : hsize ≤ 0
    · rw [if_pos h0] at h
      simp only [Option.some.injEq, Prod.mk.injEq] at h
      obtain ⟨-, -, hd, ho⟩ := h
      subst hd ho
      exact ⟨rfl, Nat.le_refl _, fun hlt => absurd hlt (Nat.lt_irrefl _)⟩
    · rw [if_neg h0] at h
      by_cases hoff : off ≥ dataSize
      · rw [if_pos hoff] at h
        simp only [Option.some.injEq, Prod.mk.injEq] at h
        obtain ⟨-, -, hd, ho⟩ := h
        subst hd ho
        exact ⟨rfl, Nat.le_refl _, fun hlt => absurd hlt (Nat.lt_irrefl _)⟩
      · rw [if_neg hoff] at h
        generalize hcl : (if hsize > BUFFER_SIZE then BUFFER_SIZE else hsize) = k at h
        have hn : (if off + k > dataSize then dataSize - off else k) ≤ dataSize - off := by
          split <;> omega
        generalize (if off + k > dataSize then dataSize - off else k) = n at h hn
        cases hcp : copy_to_user ucap ds.text off n with
        | none => rw [hcp] at h; exact absurd h (by simp)
        | some q =>
          obtain ⟨o, failed⟩ := q
          rw [hcp] at h
          simp only at h
          by_cases hf : failed > 0
          · rw [if_pos hf] at h
            simp only [Option.some.injEq, Prod.mk.injEq] at h
            obtain ⟨-, -, hd, ho⟩ := h
            subst hd ho
            exact ⟨rfl, Nat.le_refl _, fun hlt => absurd hlt (Nat.lt_irrefl _)⟩
          · rw [if_neg hf] at h
            simp only [Option.some.injEq, Prod.mk.injEq] at h
            obtain ⟨hr, -, hd, ho⟩ := h
            subst hd ho
            refine ⟨rfl, Nat.le_add_right _ _, fun _ => ⟨dataSize, hs, by omega, ?_⟩⟩
            rw [← hr, Nat.add_sub_cancel_left]

theorem myRead_cursor (vm : Bool) (ds ds1 : myds) (ucap hsize off off1 : Nat) (r : Int)
    (out : List Int) (h : myRead vm ds ucap hsize off = some (r, out, ds1, off1)) :
    off ≤ off1
      ∧ (off < off1 → ∃ n, strlen ds1.text = some n ∧ off1 ≤ n ∧ r = ((off1 - off : Nat) : Int)) := by
  have key : ∀ (res : Option (Int × List Int)),
      (match res with
        | none => none
        | some (r, text1) =>
          if r = -1 then some (-1, [], { ds with text := text1 }, off)
          else readData { ds with text := text1 } ucap hsize off)
        = some (r, out, ds1, off1) →
      off ≤ off1 ∧ (off < off1 →
        ∃ n, strlen ds1.text = some n ∧ off1 ≤ n ∧ r = ((off1 - off : Nat) : Int)) := by
    intro res hres
    cases res with
    | none => exact absurd hres (by simp)
    | some q =>
      obtain ⟨r0, text1⟩ := q
      simp only at hres
      by_cases hr : r0 = -1
      · rw [if_pos hr] at hres
        simp only [Option.some.injEq, Prod.mk.injEq] at hres
        obtain ⟨-, -, -, ho⟩ := hres
        subst ho
        exact ⟨Nat.le_refl _, fun hlt => absurd hlt (Nat.lt_irrefl _)⟩
      · rw [if_neg hr] at hres
        obtain ⟨-, h2, h3⟩ := readData_cursor _ _ _ _ _ _ _ _ hres
        exact ⟨h2, h3⟩
  unfold myRead at h
  by_cases h1 : ds.cipher = 1
  · rw [if_pos h1] at h
    exact key _ h
  · rw [if_neg h1] at h
    by_cases h0 : ds.cipher = 0
    · rw [if_pos h0] at h
      exact key _ h
    · rw [if_neg h0] at h
      simp only [Option.some.injEq, Prod.mk.injEq] at h
      obtain ⟨-, -, -, ho⟩ := h
      subst ho
      exact ⟨Nat.le_refl _, fun hlt => absurd hlt (Nat.lt_irrefl _)⟩

theorem step_cursor (fs fs1 : file) (c : Call) (r : Int) (out : List Int)
    (h : step fs c = some (r, out, fs1)) :
    fs.f_pos ≤ fs1.f_pos
      ∧ ((∀ vm ucap hsize, c ≠ Call.read vm ucap hsize) → fs1.f_pos = fs.f_pos)
      ∧ (fs.f_pos < fs1.f_pos →
          ∃ n, strlen fs1.private_data.text = some n ∧ fs1.f_pos ≤ n
            ∧ r = ((fs1.f_pos - fs.f_pos : Nat) : Int)) := by
  cases c with
  | write buf hsize =>
    simp only [step] at h
    cases hw : myWrite fs.private_data buf hsize with
    | none => rw [hw] at h; exact absurd h (by simp)
    | some q =>
      obtain ⟨r0, ds⟩ := q
      rw [hw] at h
      simp only [Option.some.injEq, Prod.mk.injEq] at h
      obtain ⟨-, -, hf⟩ := h
      subst hf
      exact ⟨Nat.le_refl _, fun _ => rfl, fun hlt => absurd hlt (Nat.lt_irrefl _)⟩
  | ioctl command data =>
    simp only [step] at h
    cases hw : myIoCtl fs.private_data command data with
    | none => rw [hw] at h; exact absurd h (by simp)
    | some q =>
      obtain ⟨r0, ds⟩ := q
      rw [hw] at h
      simp only [Option.some.injEq, Prod.mk.injEq] at h
      obtain ⟨-, -, hf⟩ := h
      subst hf
      exact ⟨Nat.le_refl _, fun _ => rfl, fun hlt => absurd hlt (Nat.lt_irrefl _)⟩
  | read vm ucap hsize =>
    simp only [step] at h
    cases hw : myRead vm fs.private_data ucap hsize fs.f_pos with
    | none => rw [hw] at h; exact absurd h (by simp)
    | some q =>
      obtain ⟨r0, out0, ds, off⟩ := q
      rw [hw] at h
      simp only [Option.some.injEq, Prod.mk.injEq] at h
      obtain ⟨hr, -, hf⟩ := h
      subst hf hr
      obtain ⟨h1, h2⟩ := myRead_cursor _ _ _ _ _ _ _ _ _ hw
      exact ⟨h1, fun hne => absurd rfl (hne vm ucap hsize), h2⟩

theorem run_cursor (cs : List Call) (fs fs1 : file) (rs : List (Int × List Int))
    (h : run fs cs = some (rs, fs1)) : fs.f_pos ≤ fs1.f_pos := by
  induction cs generalizing fs rs with
  | nil =>
    simp only [run, Option.some.injEq, Prod.mk.injEq] at h
    rw [← h.2]
  | cons c cs ih =>
    simp only [run] at h
    cases hs : step fs c with
    | none => rw [hs] at h; exact absurd h (by simp)
    | some q =>
      obtain ⟨r, out, fsa⟩ := q
      rw [hs] at h
      simp only at h
      cases hr : run fsa cs with
      | none => rw [hr] at h; exact absurd h (by simp)
      | some q2 =>
        obtain ⟨rs2, fsb⟩ := q2
        rw [hr] at h
        simp only [Option.some.injEq, Prod.mk.injEq] at h
        obtain ⟨-, hf⟩ := h
        subst hf
        exact Nat.le_trans (step_cursor _ _ _ _ _ hs).1 (ih _ _ hr)

/-! ## The resolved key
-/

/-- C11. Key-stream resolution: for every non-empty key `K` without NUL and every length `L`,
`resolveKey` on a buffer holding the C string `K` (with a successful `vmalloc`) returns a
buffer made of `L` bytes `r` and the terminator, the byte of `r` at each index `i < L` is
the byte of `K` at index `i mod len(K)`, and no byte of `r` is NUL, so the returned C string
has exactly `L` bytes; for `L = 0` it is empty.  The key is only read: `resolveKey` has no
store through `key`, and the embedding returns nothing but the new buffer. -/
theorem resolveKey_cyclic (K krest : List Int) (L : Nat) (hne : K ≠ [])
    (hK : ∀ k ∈ K, k ≠ 0) :
    ∃ r, resolveKey true (K ++ 0 :: krest) L = some (some (r ++ [0]))
      ∧ r.length = L
      ∧ (∀ i, i < L → r[i]? = K[i % K.length]?)
      ∧ strlen (r ++ [0]) = some L
      ∧ (L = 0 → r = []) := by
  have hpos : 0 < K.length := List.length_pos.mpr hne
  have hks : ∀ j, keyStream (K ++ 0 :: krest) K.length j ≠ 0 :=
    fun j => hK _ (keyStream_mem K krest hne j)
  have hnz := streamFrom_ne_zero _ hks L 0
  have hl := streamFrom_length (keyStream (K ++ 0 :: krest) K.length) L 0
  refine ⟨streamFrom (keyStream (K ++ 0 :: krest) K.length) L 0, ?_, hl, ?_, ?_, ?_⟩
  · exact resolveKey_eq _ K.length (strlen_cstring K krest hK) L (by omega)
  · intro i hi
    rw [streamFrom_getElem? _ _ _ _ hi, Nat.zero_add, keyStream_cstring K krest hne,
      getD_cycle K hne]
  · have := strlen_append _ [] hnz
    rw [hl] at this
    exact this
  · intro h0
    exact List.length_eq_zero.mp (by rw [hl, h0])

theorem resolveKey_cyclic_witness :
    ∃ r, resolveKey true (chars "key" ++ 0 :: [7]) 7 = some (some (r ++ [0]))
      ∧ r.length = 7
      ∧ (∀ i, i < 7 → r[i]? = (chars "key")[i % (chars "key").length]?)
      ∧ strlen (r ++ [0]) = some 7
      ∧ (7 = 0 → r = []) :=
  resolveKey_cyclic (chars "key") [7] 7 (by decide) (by decide)

/-! ## Texts without letters
-/

/-- C12. Fixed points: for every text `T` that contains no ASCII letter and for any key (any
terminated key buffer; for the empty key the loop of `resolveKey` walks `len(T)` bytes into
the key buffer, which therefore has to be that long, as the driver's key buffer is),
`encrypt` leaves the text buffer exactly as it was, and so does `decrypt`; the return value
is 0 when `vmalloc` succeeds. -/
theorem no_letters_fixed (vm : Bool) (T rest key : List Int) (len : Nat)
    (hT : ∀ c ∈ T, ¬ isLetter c)
    (hlen : strlen key = some len) (hk : len = 0 → T.length ≤ key.length) :
    (∃ r, encrypt vm (T ++ 0 :: rest) key = some (r, T ++ 0 :: rest) ∧ (vm = true → r = 0))
      ∧ (∃ r, decrypt vm (T ++ 0 :: rest) key = some (r, T ++ 0 :: rest)
          ∧ (vm = true → r = 0)) := by
  obtain ⟨n, hn, hle⟩ := strlen_bound T rest
  have hTn : ∀ c ∈ (T ++ 0 :: rest).take n, ¬ isLetter c := by
    intro c hc
    rw [List.take_append_of_le_length hle] at hc
    exact hT c (List.mem_of_mem_take hc)
  exact ⟨cipher_no_letters encryptChar vm _ key n len hn hTn hlen (fun h => by have := hk h; omega),
    cipher_no_letters decryptChar vm _ key n len hn hTn hlen (fun h => by have := hk h; omega)⟩

theorem no_letters_fixed_witness :
    (∃ r, encrypt true (chars "12:30 (?!)" ++ 0 :: [7, 7]) (cstr "Key")
          = some (r, chars "12:30 (?!)" ++ 0 :: [7, 7]) ∧ (true = true → r = 0))
      ∧ (∃ r, decrypt true (chars "12:30 (?!)" ++ 0 :: [7, 7]) (cstr "Key")
          = some (r, chars "12:30 (?!)" ++ 0 :: [7, 7]) ∧ (true = true → r = 0)) :=
  no_letters_fixed true (chars "12:30 (?!)") [7, 7] (cstr "Key") 3 (by decide) (by decide)
    (by decide)

/-! ## What configure stores of the key
-/

/-- Configure with a key that fits into the `SIZEOF_KEY` bytes copied, terminator included:
the key buffer then holds the key in full, as a terminated string. -/
theorem configure_short_key_stored (ds : myds) (command : Nat) (K more : List Int)
    (hlen : ds.key.length = BUFFER_SIZE) (hK0 : ∀ k ∈ K, k ≠ 0) (hK : K.length < SIZEOF_KEY)
    (hmore : SIZEOF_KEY ≤ (K ++ 0 :: more).length)
    (hc : command = MODE_ENCRYPT ∨ command = MODE_DECRYPT) :
    ∃ ds1, myIoCtl ds command (K ++ 0 :: more) = some (0, ds1)
      ∧ strlen ds1.key = some K.length ∧ ds1.key.take K.length = K := by
  refine ⟨_, myIoCtl_ok ds command K more hlen hK hmore hc, ?_, ?_⟩
  · exact strlen_append K _ hK0
  · simp

theorem configure_short_key_stored_instance :
    ∃ ds1, myIoCtl { text := zeroBuf, key := dirtyBuf, cipher := 0 } MODE_DECRYPT
          (chars "LEMON" ++ 0 :: [7, 7])
        = some (0, ds1)
      ∧ strlen ds1.key = some (chars "LEMON").length
      ∧ ds1.key.take (chars "LEMON").length = chars "LEMON" :=
  configure_short_key_stored { text := zeroBuf, key := dirtyBuf, cipher := 0 } MODE_DECRYPT
    (chars "LEMON") [7, 7] (by decide) (by decide) (by decide) (by decide) (by decide)

/-- What configure leaves in the key buffer for keys of 8, 9 and 8 bytes: a key cut after 8
bytes when the buffer was zero-filled, no terminated string at all when the buffer held no
NUL, and the key followed by bytes of the earlier contents when it held a longer string. -/
theorem configure_long_key_examples :
    (myIoCtl { text := zeroBuf, key := zeroBuf, cipher := 0 } MODE_ENCRYPT
        (cstr "LEMONADES")).map (fun r => (r.1, strlen r.2.key, r.2.key.take 9))
      = some (0, some 8, cstr "LEMONADE")
    ∧ (myIoCtl { text := zeroBuf, key := dirtyBuf, cipher := 0 } MODE_ENCRYPT
        (cstr "LEMONADE")).map (fun r => (r.1, strlen r.2.key))
      = some (0, none)
    ∧ (myIoCtl { text := zeroBuf, key := cstr "oldoldoldoldold" ++ List.replicate 496 0,
                 cipher := 0 } MODE_ENCRYPT
        (cstr "LEMONADE")).map (fun r => (r.1, strlen r.2.key, r.2.key.take 16))
      = some (0, some 15, cstr "LEMONADEdoldold") := by
  decide

/-- C13, at the failing inputs. For every key `K` of `SIZEOF_KEY` = 8 bytes or more, a
configure with a valid selector returns 0 and leaves in the key buffer the first 8 bytes of
`K` followed by what the buffer held before from index 8 on: `myIoCtl` copies
`sizeof(ds->key)` bytes, the size of a pointer, so neither the rest of `K` nor its terminator
is stored. -/
theorem configure_copies_eight_bytes (ds : myds) (command : Nat) (K more : List Int)
    (hlen : ds.key.length = BUFFER_SIZE) (hK : SIZEOF_KEY ≤ K.length)
    (hc : command = MODE_ENCRYPT ∨ command = MODE_DECRYPT) :
    myIoCtl ds command (K ++ 0 :: more)
      = some (0, { text := ds.text,
                   key := K.take SIZEOF_KEY ++ ds.key.drop SIZEOF_KEY,
                   cipher := cipherOf command }) := by
  unfold myIoCtl copy_from_user
  rw [if_pos (by rw [hlen]; decide)]
  have hmin : min SIZEOF_KEY (K ++ 0 :: more).length = SIZEOF_KEY := by
    simp only [List.length_append, List.length_cons]
    omega
  simp only [hmin, Nat.sub_self, List.replicate_zero, List.append_nil, gt_iff_lt,
    Nat.lt_irrefl, if_false]
  rw [List.take_append_of_le_length hK]
  rcases hc with hc | hc
  · rw [if_pos hc]
    simp [cipherOf, hc]
  · have hne : command ≠ MODE_ENCRYPT := by rw [hc]; decide
    rw [if_neg hne, if_pos hc]
    simp [cipherOf, hne]

theorem configure_copies_eight_bytes_witness :
    myIoCtl { text := zeroBuf, key := zeroBuf, cipher := 0 } MODE_ENCRYPT
        (chars "LEMONADES" ++ 0 :: [])
      = some (0, { text := zeroBuf,
                   key := (chars "LEMONADES").take SIZEOF_KEY ++ zeroBuf.drop SIZEOF_KEY,
                   cipher := cipherOf MODE_ENCRYPT }) :=
  configure_copies_eight_bytes { text := zeroBuf, key := zeroBuf, cipher := 0 } MODE_ENCRYPT
    (chars "LEMONADES") [] (by decide) (by decide) (by decide)

/-! ## Configure with the empty key
-/

/-- C14, the counterexample. Configure with the selector 'e' and the empty key returns 0 and
leaves a key buffer that starts with the terminator; the read that follows hands out 5 bytes
computed from the bytes of the key buffer. -/
theorem configure_accepts_empty_key :
    (myIoCtl { text := zeroBuf, key := staleKeyBuf, cipher := 0 } MODE_ENCRYPT
        (cstr "" ++ [0, 0, 0, 0, 0, 0, 0])).map (fun r => (r.1, r.2.cipher, strlen r.2.key))
      = some (0, 1, some 0)
    ∧ session zeroBuf zeroBuf [Call.write (cstr "Hello") 5,
        Call.ioctl MODE_ENCRYPT (cstr "" ++ [0, 0, 0, 0, 0, 0, 0]), Call.read true 512 5]
      = some [(5, []), (0, []), (5, [59, 82, 89, 89, 92])] := by
  decide

/-- C14, as amended. Configure does not reject an empty key: for every session state (the key
buffer has its `BUFFER_SIZE` bytes) and every selector in {'e','d'}, configure called with
the empty key (and `SIZEOF_KEY` readable bytes at the key pointer) returns 0, sets the cipher
flag for the selector and leaves a key buffer that holds the empty string. -/
theorem configure_empty_key_succeeds (ds : myds) (command : Nat) (more : List Int)
    (hlen : ds.key.length = BUFFER_SIZE) (hmore : SIZEOF_KEY ≤ (0 :: more).length)
    (hc : command = MODE_ENCRYPT ∨ command = MODE_DECRYPT) :
    ∃ ds1, myIoCtl ds command (0 :: more) = some (0, ds1)
      ∧ ds1.cipher = cipherOf command ∧ ds1.text = ds.text ∧ strlen ds1.key = some 0 := by
  have h := myIoCtl_ok ds command [] more hlen (by decide) hmore hc
  simp only [List.nil_append] at h
  exact ⟨_, h, rfl, rfl, by simp [strlen]⟩

theorem configure_empty_key_succeeds_witness :
    ∃ ds1, myIoCtl { text := zeroBuf, key := staleKeyBuf, cipher := 0 } MODE_ENCRYPT
          (0 :: [0, 0, 0, 0, 0, 0, 0]) = some (0, ds1)
      ∧ ds1.cipher = cipherOf MODE_ENCRYPT ∧ ds1.text = zeroBuf ∧ strlen ds1.key = some 0 :=
  configure_empty_key_succeeds { text := zeroBuf, key := staleKeyBuf, cipher := 0 } MODE_ENCRYPT
    [0, 0, 0, 0, 0, 0, 0] (by decide) (by decide) (by decide)

/-! ## The key stream follows the letters
-/

/-- C15. The key-stream is consumed by letter position, not character position: for every text
`T` (without NUL) and every non-empty key `K` (without NUL, in particular every alphabetic
one), `encrypt` returns 0 and leaves a string `E` of the length of `T` such that every byte of
`T` that is not a letter is copied unchanged, and the letter of `T` at index `i`, preceded by
`lettersBefore T i` letters, is replaced by `encryptChar` of that letter with the key
character `K[lettersBefore T i mod len(K)]`; `decrypt` does the same with `decryptChar`. -/
theorem letter_position_stream (T rest K krest : List Int)
    (hT : ∀ c ∈ T, c ≠ 0) (hK : ∀ k ∈ K, k ≠ 0) (hne : K ≠ []) :
    (∃ E, encrypt true (T ++ 0 :: rest) (K ++ 0 :: krest) = some (0, E ++ 0 :: rest)
        ∧ E.length = T.length
        ∧ ∀ (i : Nat) (c : Int), T[i]? = some c →
            (¬ isLetter c → E[i]? = some c)
            ∧ (isLetter c → ∃ k, K[lettersBefore T i % K.length]? = some k
                ∧ E[i]? = some (encryptChar c k)))
      ∧ (∃ D, decrypt true (T ++ 0 :: rest) (K ++ 0 :: krest) = some (0, D ++ 0 :: rest)
        ∧ D.length = T.length
        ∧ ∀ (i : Nat) (c : Int), T[i]? = some c →
            (¬ isLetter c → D[i]? = some c)
            ∧ (isLetter c → ∃ k, K[lettersBefore T i % K.length]? = some k
                ∧ D[i]? = some (decryptChar c k))) :=
  ⟨⟨cipherStr encryptChar T K, cipher_buffers encryptChar T rest K krest hT hK hne,
      cipherStr_length encryptChar T K hT hK hne,
      fun i c h => cipherStr_getElem? encryptChar T K hT hK hne i c h⟩,
    ⟨cipherStr decryptChar T K, cipher_buffers decryptChar T rest K krest hT hK hne,
      cipherStr_length decryptChar T K hT hK hne,
      fun i c h => cipherStr_getElem? decryptChar T K hT hK hne i c h⟩⟩

theorem letter_position_stream_witness :
    (∃ E, encrypt true (chars "a, b c!" ++ 0 :: [7]) (chars "Key" ++ 0 :: [9])
          = some (0, E ++ 0 :: [7])
        ∧ E.length = (chars "a, b c!").length
        ∧ ∀ (i : Nat) (c : Int), (chars "a, b c!")[i]? = some c →
            (¬ isLetter c → E[i]? = some c)
            ∧ (isLetter c → ∃ k, (chars "Key")[lettersBefore (chars "a, b c!") i
                  % (chars "Key").length]? = some k
                ∧ E[i]? = some (encryptChar c k)))
      ∧ (∃ D, decrypt true (chars "a, b c!" ++ 0 :: [7]) (chars "Key" ++ 0 :: [9])
          = some (0, D ++ 0 :: [7])
        ∧ D.length = (chars "a, b c!").length
        ∧ ∀ (i : Nat) (c : Int), (chars "a, b c!")[i]? = some c →
            (¬ isLetter c → D[i]? = some c)
            ∧ (isLetter c → ∃ k, (chars "Key")[lettersBefore (chars "a, b c!") i
                  % (chars "Key").length]? = some k
                ∧ D[i]? = some (decryptChar c k))) :=
  letter_position_stream (chars "a, b c!") [7] (chars "Key") [9] (by decide) (by decide)
    (by decide)

/-! ## The per-character formula
-/

/-- C16. Per-character formula: for every ASCII letter `c`, with `base` = 'a' for a lowercase
and 'A' for an uppercase `c`, and every ASCII letter `k`, normalised to the case of `c`,
`encryptChar c k = base + ((c - base) + (k - base)) mod 26` and
`decryptChar c k = base + ((c - base) - (k - base) + 26) mod 26` (with the mathematical
`mod`: the sums are not negative, so C's truncating `%` agrees with it); both results lie
between `base` and `base + 25`, that is, they are letters of the case of `c`. -/
theorem char_formula (c k : Int) (hc : isLetter c) (hk : isLetter k) :
    encryptChar c k = baseOf c + ((c - baseOf c) + (normalise c k - baseOf c)) % 26
      ∧ decryptChar c k = baseOf c + ((c - baseOf c) - (normalise c k - baseOf c) + 26) % 26
      ∧ (baseOf c ≤ encryptChar c k ∧ encryptChar c k ≤ baseOf c + 25)
      ∧ (baseOf c ≤ decryptChar c k ∧ decryptChar c k ≤ baseOf c + 25) := by
  have he : encryptChar c k = baseOf c + ((c - baseOf c) + (normalise c k - baseOf c)) % 26 := by
    rcases hc with hc | hc
    · have hl : ¬ (97 ≤ c ∧ c ≤ 122) := by omega
      simp only [encryptChar, baseOf, normalise, if_neg hl, if_pos hc]
      by_cases hkl : 97 ≤ k ∧ k ≤ 122
      · simp only [if_pos hkl]
        rw [Int.tmod_eq_emod (by omega) (by decide)]
        omega
      · simp only [if_neg hkl]
        rw [Int.tmod_eq_emod (by unfold isLetter at hk; omega) (by decide)]
        omega
    · simp only [encryptChar, baseOf, normalise, if_pos hc]
      by_cases hku : 65 ≤ k ∧ k ≤ 90
      · simp only [if_pos hku]
        rw [Int.tmod_eq_emod (by omega) (by decide)]
        omega
      · simp only [if_neg hku]
        rw [Int.tmod_eq_emod (by unfold isLetter at hk; omega) (by decide)]
        omega
  have hd : decryptChar c k
      = baseOf c + ((c - baseOf c) - (normalise c k - baseOf c) + 26) % 26 := by
    rcases hc with hc | hc
    · have hl : ¬ (97 ≤ c ∧ c ≤ 122) := by omega
      simp only [decryptChar, baseOf, normalise, if_neg hl, if_pos hc]
      by_cases hkl : 97 ≤ k ∧ k ≤ 122
      · simp only [if_pos hkl]
        rw [Int.tmod_eq_emod (by omega) (by decide)]
        omega
      · simp only [if_neg hkl]
        rw [Int.tmod_eq_emod (by unfold isLetter at hk; omega) (by decide)]
        omega
    · simp only [decryptChar, baseOf, normalise, if_pos hc]
      by_cases hku : 65 ≤ k ∧ k ≤ 90
      · simp only [if_pos hku]
        rw [Int.tmod_eq_emod (by omega) (by decide)]
        omega
      · simp only [if_neg hku]
        rw [Int.tmod_eq_emod (by unfold isLetter at hk; omega) (by decide)]
        omega
  refine ⟨he, hd, ?_, ?_⟩
  · rw [he]; omega
  · rw [hd]; omega

theorem char_formula_witness :
    encryptChar 116 75 = baseOf 116 + ((116 - baseOf 116) + (normalise 116 75 - baseOf 116)) % 26
      ∧ decryptChar 116 75
          = baseOf 116 + ((116 - baseOf 116) - (normalise 116 75 - baseOf 116) + 26) % 26
      ∧ (baseOf 116 ≤ encryptChar 116 75 ∧ encryptChar 116 75 ≤ baseOf 116 + 25)
      ∧ (baseOf 116 ≤ decryptChar 116 75 ∧ decryptChar 116 75 ≤ baseOf 116 + 25) :=
  char_formula 116 75 (by decide) (by decide)

/-! ## The per-character functions are inverse to each other
-/

/-- C17. Per-character mutual inverses: for every ASCII letter `c` and every ASCII letter `k`
of either case, `decryptChar (encryptChar c k) k = c` and
`encryptChar (decryptChar c k) k = c`; for every `c` that is not a letter and any `k`,
`encryptChar c k = c` and `decryptChar c k = c`. -/
theorem char_inverses (c k : Int) :
    (isLetter c → isLetter k →
        decryptChar (encryptChar c k) k = c ∧ encryptChar (decryptChar c k) k = c)
      ∧ (¬ isLetter c → encryptChar c k = c ∧ decryptChar c k = c) := by
  refine ⟨fun hc hk => ⟨(encryptChar_letter c k hc hk).2, ?_⟩,
    fun hc => ⟨encryptChar_not_letter c k hc, decryptChar_not_letter c k hc⟩⟩
  rcases hc with hc | hc
  · exact (decryptChar_upper c k hc hk).2.2
  · exact (decryptChar_lower c k hc hk).2.2

theorem char_inverses_witness :
    (decryptChar (encryptChar 116 75) 75 = 116 ∧ encryptChar (decryptChar 116 75) 75 = 116)
      ∧ (encryptChar 33 75 = 33 ∧ decryptChar 33 75 = 33) :=
  ⟨(char_inverses 116 75).1 (by decide) (by decide), (char_inverses 33 75).2 (by decide)⟩

/-! ## The read cursor
-/

/-- C18, the counterexample. After write("HELLO"), configure, read(5) and write("HI") the
cursor is 5 and the text in the buffer has length 2: the write did not reset the cursor, which
now exceeds the length of the current text. -/
theorem cursor_exceeds_text :
    (sessionEnd zeroBuf zeroBuf [Call.write (cstr "HELLO") 5,
        Call.ioctl MODE_ENCRYPT (cstr "KEY" ++ [0, 0, 0, 0]), Call.read true 512 5,
        Call.write (cstr "HI") 2]).map (fun fs => (fs.f_pos, strlen fs.private_data.text))
      = some (5, some 2) := by
  decide

/-- C18, as amended. From every state, hence from every state reachable from open, the read
cursor never decreases along any sequence of write, configure and read calls; a write or a
configure leaves the cursor exactly where it was (a write does not reset it); and a read that
moves the cursor advances it by the count it returns and leaves it at most the length of the
text then in the buffer. -/
theorem cursor_never_decreases (fs fs1 fs2 : file) (cs : List Call) (c : Call)
    (rs : List (Int × List Int)) (r : Int) (out : List Int)
    (hrun : run fs cs = some (rs, fs1)) (hstep : step fs1 c = some (r, out, fs2)) :
    fs.f_pos ≤ fs1.f_pos ∧ fs1.f_pos ≤ fs2.f_pos
      ∧ ((∀ vm ucap hsize, c ≠ Call.read vm ucap hsize) → fs2.f_pos = fs1.f_pos)
      ∧ (fs1.f_pos < fs2.f_pos →
          ∃ n, strlen fs2.private_data.text = some n ∧ fs2.f_pos ≤ n
            ∧ r = ((fs2.f_pos - fs1.f_pos : Nat) : Int)) :=
  ⟨run_cursor cs fs fs1 rs hrun, step_cursor fs1 fs2 c r out hstep⟩

theorem cursor_never_decreases_witness :
    ({ private_data := { text := zeroBuf, key := zeroBuf, cipher := 0 }, f_pos := 0 } : file).f_pos
        ≤ configuredFile.f_pos
      ∧ configuredFile.f_pos ≤ partlyReadFile.f_pos
      ∧ ((∀ vm ucap hsize, Call.read true 512 3 ≠ Call.read vm ucap hsize) →
          partlyReadFile.f_pos = configuredFile.f_pos)
      ∧ (configuredFile.f_pos < partlyReadFile.f_pos →
          ∃ n, strlen partlyReadFile.private_data.text = some n ∧ partlyReadFile.f_pos ≤ n
            ∧ (3 : Int) = ((partlyReadFile.f_pos - configuredFile.f_pos : Nat) : Int)) :=
  cursor_never_decreases
    { private_data := { text := zeroBuf, key := zeroBuf, cipher := 0 }, f_pos := 0 }
    configuredFile partlyReadFile
    [Call.write (cstr "HELLO") 5, Call.ioctl MODE_ENCRYPT (cstr "KEY" ++ [0, 0, 0, 0])]
    (Call.read true 512 3) [(5, []), (0, [])] 3 (chars "RIJ") (by decide) (by decide)

/-! ## Length and non-letters are kept under any key
-/

/-- C19. Encrypt and decrypt preserve the length of the text and its non-letter positions for
any key: for every text `T` (without NUL) and every non-empty key `K` (without NUL, letters
or not), `encrypt` returns 0 and leaves a string `E` of the length of `T` without any NUL
byte that agrees with `T` wherever `T` holds a non-letter, and so does `decrypt`. -/
theorem length_and_non_letters_kept (T rest K krest : List Int)
    (hT : ∀ c ∈ T, c ≠ 0) (hK : ∀ k ∈ K, k ≠ 0) (hne : K ≠ []) :
    (∃ E, encrypt true (T ++ 0 :: rest) (K ++ 0 :: krest) = some (0, E ++ 0 :: rest)
        ∧ E.length = T.length ∧ (∀ c ∈ E, c ≠ 0)
        ∧ ∀ (i : Nat) (c : Int), T[i]? = some c → ¬ isLetter c → E[i]? = some c)
      ∧ (∃ D, decrypt true (T ++ 0 :: rest) (K ++ 0 :: krest) = some (0, D ++ 0 :: rest)
        ∧ D.length = T.length ∧ (∀ c ∈ D, c ≠ 0)
        ∧ ∀ (i : Nat) (c : Int), T[i]? = some c → ¬ isLetter c → D[i]? = some c) :=
  ⟨⟨cipherStr encryptChar T K, cipher_buffers encryptChar T rest K krest hT hK hne,
      cipherStr_length encryptChar T K hT hK hne,
      cipherStr_ne_zero encryptChar encryptChar_ne_zero T K hT hK hne,
      fun i c h => (cipherStr_getElem? encryptChar T K hT hK hne i c h).1⟩,
    ⟨cipherStr decryptChar T K, cipher_buffers decryptChar T rest K krest hT hK hne,
      cipherStr_length decryptChar T K hT hK hne,
      cipherStr_ne_zero decryptChar decryptChar_ne_zero T K hT hK hne,
      fun i c h => (cipherStr_getElem? decryptChar T K hT hK hne i c h).1⟩⟩

theorem length_and_non_letters_kept_witness :
    (∃ E, encrypt true (chars "a, b c!" ++ 0 :: [7]) (chars "k3y?" ++ 0 :: [9])
          = some (0, E ++ 0 :: [7])
        ∧ E.length = (chars "a, b c!").length ∧ (∀ c ∈ E, c ≠ 0)
        ∧ ∀ (i : Nat) (c : Int), (chars "a, b c!")[i]? = some c → ¬ isLetter c → E[i]? = some c)
      ∧ (∃ D, decrypt true (chars "a, b c!" ++ 0 :: [7]) (chars "k3y?" ++ 0 :: [9])
          = some (0, D ++ 0 :: [7])
        ∧ D.length = (chars "a, b c!").length ∧ (∀ c ∈ D, c ≠ 0)
        ∧ ∀ (i : Nat) (c : Int), (chars "a, b c!")[i]? = some c → ¬ isLetter c → D[i]? = some c) :=
  length_and_non_letters_kept (chars "a, b c!") [7] (chars "k3y?") [9] (by decide) (by decide)
    (by decide)

/-! ## The case of the key
-/

/-- C20. The key's letter case does not matter: for every text buffer and every two non-empty
alphabetic keys `K` and `K2` of the same length that differ only in the case of their letters
(at every index the two hold the same letter), `encrypt` with `K` and `encrypt` with `K2`
give the same result, and so do `decrypt` with `K` and `decrypt` with `K2`. -/
theorem key_case_irrelevant (vm : Bool) (text K krest K2 krest2 : List Int) (hne : K ≠ [])
    (hl : K.length = K2.length)
    (h : ∀ i, i < K.length → sameLetter (K.getD i 0) (K2.getD i 0)) :
    encrypt vm text (K ++ 0 :: krest) = encrypt vm text (K2 ++ 0 :: krest2)
      ∧ decrypt vm text (K ++ 0 :: krest) = decrypt vm text (K2 ++ 0 :: krest2) :=
  ⟨cipher_key_case encryptChar encryptChar_sameLetter vm text K krest K2 krest2 hne hl h,
    cipher_key_case decryptChar decryptChar_sameLetter vm text K krest K2 krest2 hne hl h⟩

theorem key_case_irrelevant_witness :
    encrypt true (cstr "Attack at Dawn!") (chars "LeMoN" ++ 0 :: [])
        = encrypt true (cstr "Attack at Dawn!") (chars "lEmON" ++ 0 :: [7])
      ∧ decrypt true (cstr "Attack at Dawn!") (chars "LeMoN" ++ 0 :: [])
        = decrypt true (cstr "Attack at Dawn!") (chars "lEmON" ++ 0 :: [7]) :=
  key_case_irrelevant true (cstr "Attack at Dawn!") (chars "LeMoN") [] (chars "lEmON") [7]
    (by decide) (by decide) (by decide)

end Vigenere
